import Mathlib

/-!
Verification of the reconciliation (sync) engine of `scripts/logbook-local.py`.

The Python code is shallowly embedded: pure fragments become Lean functions
over `String` / `List Char`; the file-system and network side effects are made
explicit parameters (parsed progress entries, remote snapshots, API responses,
operator choices).  Python strings are modelled through their character lists
(`String.data`); Python string comparison (`<`, `>`) is code-point
lexicographic, embedded as the structural `lexLt` below; Python slicing
`s[:n]` is `List.take n` on the character list.  Dictionary fields read with
`dict.get(key, '')` are modelled as `String` fields where `""` plays the role
of the falsy values (`''`/`None`/missing key) that the code treats uniformly
via truthiness.
-/

namespace LogbookSync

/-- Character-list slice used for Python's `s[:n]`; kernel-friendly. -/
def strTake (s : String) (n : Nat) : String := ⟨s.data.take n⟩

/-- Python's `str.lower()`, restricted to the ASCII range that the engine's
data actually uses (`Char.toLower` maps `A`-`Z` to `a`-`z` and fixes the
rest). -/
def strLower (s : String) : String := ⟨s.data.map Char.toLower⟩

/-- Python's `"\n".join(points)`. -/
def joinNl : List String → String
  | [] => ""
  | [x] => x
  | x :: xs => x ++ "\n" ++ joinNl xs

/-- Code-point lexicographic order on character lists: Python's `<` on
`str`.  (A proper prefix is smaller; otherwise the first differing
code point decides.) -/
def lexLt : List Char → List Char → Bool
  | [], [] => false
  | [], _ :: _ => true
  | _ :: _, [] => false
  | a :: as, b :: bs =>
    if a < b then true else if b < a then false else lexLt as bs

/-- Python's `s < t` on strings. -/
def pyLt (s t : String) : Bool := lexLt s.data t.data

/-- One parsed entry of a task record's `## Progress Log` section, as produced
by `parse_progress_log` (source lines 1403-1434): a `YYYY-MM-DD` date string
and the entry's content, in file order. -/
structure ProgressEntry where
  date : String
  content : String
deriving DecidableEq

/-- The frontmatter fields of a task record that `detect_jira_gaps` reads via
`task_data.get(...)` (source lines 1514-1515, 1529, 1550); a missing field is
the empty string, matching `dict.get(key, '')`. -/
structure TaskData where
  status : String
  due_date : String
  next_action : String
  next_action_due : String
deriving DecidableEq

/-- The fields of a remote issue snapshot that `detect_jira_gaps` reads
(source lines 1494, 1530, 1551, 1556), as returned by
`fetch_jira_issue_state`.  `last_comment_date` is `""` when the issue has no
comments (the code treats `None` and `''` alike through truthiness). -/
structure JiraState where
  status : String
  due_date : String
  last_comment_date : String
deriving DecidableEq

/-- One suggested update, i.e. the dictionaries appended to `suggestions` in
`detect_jira_gaps` (source lines 1521-1526, 1533-1547, 1554-1560).  Fields a
given update type does not carry are `""`. -/
structure Suggestion where
  type : String
  content : String := ""
  current : String := ""
  suggested : String := ""
  reason : String := ""
  confidence : String := ""
deriving DecidableEq

/-- The repository encodes a locally-done task as frontmatter `status: d`
(see the status legend at source lines 468-470 mapping `"d"` to `"Done"`,
and the skip at line 1597). -/
def doneStatus : String := "d"

/-- The cutoff date `jira_comment_date` computed at source lines 1494-1498:
the first ten characters of the remote `last_comment_date`, or the sentinel
`1970-01-01` when the snapshot has no last comment. -/
def jiraCommentCutoff (js : JiraState) : String :=
  if js.last_comment_date ≠ "" then strTake js.last_comment_date 10
  else "1970-01-01"

/-- The entries folded into the comment body at source lines 1503-1508:
those dated strictly after the cutoff, in parsed (file) order, capped at 3. -/
def collectedEntries (cutoff : String) (entries : List ProgressEntry) :
    List ProgressEntry :=
  (entries.filter fun e => pyLt cutoff e.date).take 3

/-- The comment body built at source lines 1507-1519: today's date prefix,
the dash-prefixed (length-bounded to 150 characters) entry contents joined by
newlines, then the optional `next_action` / `next_action_due` tail. -/
def commentBody (today : String) (task : TaskData)
    (collected : List ProgressEntry) : String :=
  let base := "Update " ++ today ++ ": " ++
    joinNl (collected.map fun e => "- " ++ strTake e.content 150)
  let withNext :=
    if task.next_action ≠ "" then
      let s := base ++ "\n\nNext: " ++ task.next_action
      if task.next_action_due ≠ "" then s ++ " (by " ++ task.next_action_due ++ ")"
      else s
    else base
  withNext

/-- Check 1 of `detect_jira_gaps` (source lines 1488-1526): local progress
since the last remote comment.  The code takes `progress_entries[0]` as the
"most recent" entry (line 1490) and fires when its date is strictly greater
than the cutoff. -/
def commentCheck (today : String) (task : TaskData) (js : JiraState)
    (entries : List ProgressEntry) : List Suggestion :=
  match entries with
  | [] => []
  | latest :: _ =>
    let cutoff := jiraCommentCutoff js
    if pyLt cutoff latest.date then
      let newEntries := entries.filter fun e => pyLt cutoff e.date
      if newEntries ≠ [] then
        [{ type := "comment",
           content := commentBody today task (newEntries.take 3),
           reason := "Local progress since " ++ cutoff,
           confidence := "high" }]
      else []
    else []

/-- Check 2 of `detect_jira_gaps` (source lines 1528-1547): due-date
mismatch.  Python truthiness of the two `.get(...)` reads is `≠ ""`. -/
def dueDateCheck (task : TaskData) (js : JiraState) : List Suggestion :=
  if task.due_date ≠ "" ∧ js.due_date ≠ "" ∧ task.due_date ≠ js.due_date then
    [{ type := "due_date",
       current := js.due_date,
       suggested := task.due_date,
       reason := "Local task due_date differs from Jira",
       confidence := "medium" }]
  else if task.due_date ≠ "" ∧ js.due_date = "" then
    [{ type := "due_date",
       current := "Not set",
       suggested := task.due_date,
       reason := "Jira has no due date but task has one",
       confidence := "medium" }]
  else []

/-- Check 3 of `detect_jira_gaps` (source lines 1549-1560): local task done
but the remote status is not terminal. -/
def statusCheck (task : TaskData) (js : JiraState) : List Suggestion :=
  if task.status = doneStatus ∧
      ¬ strLower js.status ∈ ["done", "closed", "resolved"] then
    [{ type := "transition",
       current := js.status,
       suggested := "Done",
       reason := "Local task is marked done but Jira is not",
       confidence := "high" }]
  else []

/-- `detect_jira_gaps` (source lines 1461-1562).  The three checks append to
`suggestions` in fixed order.  `today` is the ambient `datetime.now()` read at
line 1483, made an explicit argument; `entries` is the parsed progress log of
the task file (line 1486). -/
def detect_jira_gaps (today : String) (task : TaskData) (js : JiraState)
    (entries : List ProgressEntry) : List Suggestion :=
  commentCheck today task js entries ++ dueDateCheck task js ++
    statusCheck task js

/-- Maximum entry date, max-by-date over the whole list (the spec's notion of
`L`; the code itself does not compute this). -/
def maxEntryDate (entries : List ProgressEntry) : String :=
  entries.foldl (fun acc e => if pyLt acc e.date then e.date else acc) ""

/-!
## Executors

Network responses of `api_request` are modelled as `Option Unit`: `none` is
Python `None` (unreachable, error status, or a 204 No-Content body), `some ()`
any truthy decoded JSON object.  Credential presence
(`all([domain, email, token])`) is a `Bool` parameter.
-/

/-- `execute_jira_due_date` (source lines 1840-1869).  After the credentials
guard, the function ends with `return response is not None or True`
(line 1869), a disjunction whose right operand is the constant `True`. -/
def execute_jira_due_date (credsOk : Bool) (response : Option Unit) : Bool :=
  if ¬ credsOk then false
  else response.isSome || true

/-- One element of the `transitions` array returned by the tracker
(`t.get("name")`, `t.get("to").get("name")`, `t["id"]`). -/
structure JiraTransition where
  id : String
  name : String
  to_name : String
deriving DecidableEq

/-- The transition-resolution loop of `execute_jira_transition` (source lines
1900-1905): first transition whose name or destination-state name matches the
target case-insensitively. -/
def findTransition (target : String) (ts : List JiraTransition) :
    Option JiraTransition :=
  let targetLower := strLower target
  ts.find? fun t =>
    strLower t.name == targetLower || strLower t.to_name == targetLower

/-- `execute_jira_transition` (source lines 1872-1919): credentials guard,
fetch of the available transitions (`none` models a failed/falsy fetch,
line 1895), resolution of the target, then the transition POST — whose
response is ignored: line 1919 is `return True`. -/
def execute_jira_transition (credsOk : Bool)
    (transitionsResp : Option (List JiraTransition)) (target : String)
    (postResponse : Option Unit) : Bool :=
  if ¬ credsOk then false
  else
    match transitionsResp with
    | none => false
    | some ts =>
      match findTransition target ts with
      | none => false
      | some _ => true

/-!
## Scan persistence and the review/apply loop

`jira_sync_review` (source lines 2053-2191) walks the persisted batch card by
card and, within a card, update by update, blocking on one operator choice per
update.  The operator's console inputs and the network's responses are
modelled as a choice stream `Nat → Choice`; index `n` is the `n`-th prompt.
An `ExecOutcome` bundles what the world does when an update is executed:
`ok` (API success), `apiFail` (falsy API result, lines 1964-1967), `exn`
(exception raised inside execution, lines 1969-1972).
-/

/-- One card of the persisted batch, as assembled at source lines 1621-1629
and consumed at lines 2106-2112. -/
structure CardGroup where
  jira_key : String
  jira_title : String
  jira_url : String
  jira_status : String
  task_file : String
  task_title : String
  updates : List Suggestion
deriving DecidableEq

/-- The persisted batch: `{'generated': ..., 'suggestions': [...]}` (source
lines 1640-1643). -/
structure SyncBatch where
  generated : String
  suggestions : List CardGroup
deriving DecidableEq

/-- `save_pending_jira_updates` (source lines 1636-1649): writes the batch
file; always succeeds in the model. -/
def save_pending_jira_updates (generated : String)
    (suggestions : List CardGroup) : SyncBatch :=
  ⟨generated, suggestions⟩

/-- `jira_sync_detect` (source lines 1652-1664): scans, and if the suggestion
list is empty returns *before* `save_pending_jira_updates` is called
(lines 1659-1661), so nothing is persisted; otherwise the batch is saved.
`none` means no file was written. -/
def jira_sync_detect (generated : String) (suggestions : List CardGroup) :
    Option SyncBatch :=
  if suggestions.isEmpty then none
  else some (save_pending_jira_updates generated suggestions)

/-- What the environment does when an approved/edited update is executed. -/
inductive ExecOutcome where
  | ok
  | apiFail
  | exn
deriving DecidableEq

/-- `execute_jira_update` (source lines 1942-1972): returns the success flag
and the number of clipboard-fallback attempts made.  A falsy API result
(lines 1964-1967) and an exception raised inside execution (caught at lines
1969-1972, never propagated) both make exactly one fallback attempt and
report failure. -/
def executeJiraUpdate : ExecOutcome → Bool × Nat
  | .ok => (true, 0)
  | .apiFail => (false, 1)
  | .exn => (false, 1)

/-- One operator decision at a prompt (source line 2142; any input other than
`q`/`a`/`e` is a skip, line 2177).  For `edit`, `edited = none` models a
cancelled or invalid edit (`edit_jira_update` returning `None`), and
`edited = some u` a confirmed edit with payload `u`. -/
inductive Choice where
  | approve (outcome : ExecOutcome)
  | edit (edited : Option Suggestion) (outcome : ExecOutcome)
  | skip
  | quit
deriving DecidableEq

/-- Result of consuming one card's update list (inner loop, source lines
2120-2180).  `events` are the `log_agent_feedback` actions in order (pairs of
suggestion type and action); `fallbacks` counts clipboard-fallback attempts;
`executed` lists the successfully executed payloads in order;
`quitRemaining = some us` means Quit was chosen while `us.head` was being
presented (`updates[j-1:]`, line 2148); `next` is the index of the next
unconsumed choice. -/
structure UpdatesResult where
  events : List (String × String)
  fallbacks : Nat
  executed : List Suggestion
  quitRemaining : Option (List Suggestion)
  next : Nat
deriving DecidableEq

/-- Inner loop over one card's updates (source lines 2120-2180). -/
def runUpdates (choose : Nat → Choice) :
    List Suggestion → Nat → UpdatesResult
  | [], n => ⟨[], 0, [], none, n⟩
  | u :: us, n =>
    match choose n with
    | .quit => ⟨[], 0, [], some (u :: us), n + 1⟩
    | .approve outcome =>
      let e := executeJiraUpdate outcome
      let r := runUpdates choose us (n + 1)
      if e.1 then
        ⟨(u.type, "approved") :: r.events, e.2 + r.fallbacks, u :: r.executed,
          r.quitRemaining, r.next⟩
      else
        ⟨(u.type, "failed") :: r.events, e.2 + r.fallbacks, r.executed,
          r.quitRemaining, r.next⟩
    | .edit edited outcome =>
      match edited with
      | some u' =>
        let e := executeJiraUpdate outcome
        let r := runUpdates choose us (n + 1)
        if e.1 then
          ⟨(u.type, "approved_edited") :: r.events, e.2 + r.fallbacks,
            u' :: r.executed, r.quitRemaining, r.next⟩
        else
          ⟨(u.type, "failed") :: r.events, e.2 + r.fallbacks, r.executed,
            r.quitRemaining, r.next⟩
      | none =>
        let r := runUpdates choose us (n + 1)
        ⟨(u.type, "edit_cancelled") :: r.events, r.fallbacks, r.executed,
          r.quitRemaining, r.next⟩
    | .skip =>
      let r := runUpdates choose us (n + 1)
      ⟨(u.type, "skipped") :: r.events, r.fallbacks, r.executed,
        r.quitRemaining, r.next⟩

/-- Result of the whole review loop.  `persisted = some cards` means Quit
rewrote the batch file with exactly `cards` (lines 2146-2149) and the loop
returned; `persisted = none` means the loop exhausted all cards and deleted
the batch file (line 2183). -/
structure LoopResult where
  events : List (String × String)
  fallbacks : Nat
  executed : List Suggestion
  persisted : Option (List CardGroup)
deriving DecidableEq

/-- Outer loop over the batch's cards (source lines 2106-2183).  On Quit the
saved batch is the current card restricted to `updates[j-1:]` followed by the
untouched subsequent cards (`suggestions[i-1:]` with `remaining[0]['updates']`
overwritten, lines 2147-2148). -/
def runCards (choose : Nat → Choice) : List CardGroup → Nat → LoopResult
  | [], _ => ⟨[], 0, [], none⟩
  | c :: rest, n =>
    let r := runUpdates choose c.updates n
    match r.quitRemaining with
    | some rem =>
      ⟨r.events, r.fallbacks, r.executed,
        some ({ c with updates := rem } :: rest)⟩
    | none =>
      let r2 := runCards choose rest r.next
      ⟨r.events ++ r2.events, r.fallbacks + r2.fallbacks,
        r.executed ++ r2.executed, r2.persisted⟩

/-- Entry of `jira_sync_review` (source lines 2064-2081): no pending file at
all, a pending file with an empty suggestion list (message `No pending
updates`, file deleted, return — lines 2078-2081), or a real run.  The
staleness confirmation (lines 2083-2093) is not modelled; it only gates
whether the run starts. -/
inductive ReviewOutcome where
  | noPendingFile
  | nothingToDo
  | ran (result : LoopResult)
deriving DecidableEq

/-- `jira_sync_review`, given the parsed content of the pending file. -/
def jira_sync_review (pending : Option (List CardGroup))
    (choose : Nat → Choice) : ReviewOutcome :=
  match pending with
  | none => .noPendingFile
  | some [] => .nothingToDo
  | some cards => .ran (runCards choose cards 0)

/-!
## Audit logger

`log_to_task_progress` (source lines 1975-2008) patches the record's text
with one audit line.  The text is modelled as its character list.  Python's
`content.split(sep)` for a nonempty separator is the left-to-right,
non-overlapping split `pySplit`; the fuel argument (instantiated with the
list's length, which every step strictly decreases) only makes the recursion
structural.
-/

/-- Python `s.split(sep)` for nonempty `sep`: scan left to right, at each
position either strip a separator occurrence and close the current part, or
move one character into the accumulator. -/
def pySplitAux (sep : List Char) : Nat → List Char → List Char →
    List (List Char)
  | _, [], acc => [acc.reverse]
  | 0, s, acc => [acc.reverse ++ s]
  | fuel + 1, c :: rest, acc =>
    if sep.isPrefixOf (c :: rest) then
      acc.reverse :: pySplitAux sep fuel (List.drop sep.length (c :: rest)) []
    else
      pySplitAux sep fuel rest (c :: acc)

/-- Python `s.split(sep)`. -/
def pySplit (sep s : List Char) : List (List Char) :=
  pySplitAux sep s.length s []

/-- The note-log section header (source line 1997). -/
def progressHeader : List Char := "## Progress Log".data

/-- The audit line built at source lines 1986-1994:
`- <today>: [Jira Sync] <type-specific summary>`. -/
def mkLogEntry (today jiraKey : String) (u : Suggestion) : String :=
  if u.type = "comment" then
    "- " ++ today ++ ": [Jira Sync] Posted comment to " ++ jiraKey
  else if u.type = "due_date" then
    "- " ++ today ++ ": [Jira Sync] Updated " ++ jiraKey ++ " due date to " ++
      u.suggested
  else if u.type = "transition" then
    "- " ++ today ++ ": [Jira Sync] Transitioned " ++ jiraKey ++ " to " ++
      u.suggested
  else "- " ++ today ++ ": [Jira Sync] Updated " ++ jiraKey

/-- `log_to_task_progress` (source lines 1996-2005), given the record's text
and the audit line: the text is split on the header; only a split into
exactly two parts (the header occurring exactly once) is patched — the entry
plus a newline is spliced in right after the first newline following the
header (or after one character when no newline follows, the code's
`header_end = 0` fallback).  `none` means the record is not written. -/
def log_to_task_progress (content entry : List Char) : Option (List Char) :=
  match pySplit progressHeader content with
  | [before, after] =>
    let p := match after.findIdx? (· == '\n') with
      | some k => k + 1
      | none => 1
    some (before ++ progressHeader ++ after.take p ++ entry ++
      '\n' :: after.drop p)
  | _ => none

/-!
## Key extractor

`extract_jira_keys` (source lines 1315-1340) runs two `re.findall` passes over
the task file's text and unions the results into a set:

* `https?://[^/]+/browse/([A-Z]+-\d+)` — keys embedded in issue-browse URLs;
* `\b([A-Z]{2,10}-\d+)\b` — bare inline keys.

Both passes are embedded as explicit left-to-right scanners over the
character list, with the regex engine's greedy-plus-backtracking collapsed
into maximal character-class runs (the collapse is forced: backtracking a
greedy `[A-Z]+`/`[A-Z]{2,10}`/`\d+`/`[^/]+` run by one position always puts a
character of the same class where the next pattern element demands a
different character, so only the maximal run can succeed, and a run longer
than 10 kills the bounded repetition outright).  `re.findall` semantics:
scan positions left to right, on a match emit the capture group and resume
right after the match, on a failure advance one position.  The fuel argument
(instantiated with the list length, which every step strictly decreases)
merely makes the recursion structural.  `\w` is modelled over the ASCII range
the repository's data uses.
-/

/-- `[A-Z]` (code points 65-90). -/
def isUpperAZ (c : Char) : Bool := 65 ≤ c.toNat && c.toNat ≤ 90

/-- `\d` (ASCII digits, code points 48-57). -/
def isDigit09 (c : Char) : Bool := 48 ≤ c.toNat && c.toNat ≤ 57

/-- `\w` (ASCII): upper/lower letters, digits, underscore (95). -/
def isWordChar (c : Char) : Bool :=
  isUpperAZ c || (97 ≤ c.toNat && c.toNat ≤ 122) || isDigit09 c ||
    c.toNat == 95

/-- The trailing `\b` after `\d+`: end of input or a non-word character. -/
def boundaryAfterB : List Char → Bool
  | [] => true
  | c :: _ => !isWordChar c

/-- Strip a literal from the front: `matchLit lit s = some t` iff
`s = lit ++ t`. -/
def matchLit : List Char → List Char → Option (List Char)
  | [], s => some s
  | _ :: _, [] => none
  | l :: ls, c :: cs => if c = l then matchLit ls cs else none

/-- `[A-Z]{2,10}-\d+\b` anchored at the head of `s` (the leading `\b` is the
scanner's job): maximal uppercase run of length 2-10, a dash, a maximal
nonempty digit run, then a word boundary.  Returns the token and the rest. -/
def inlineMatchHead (s : List Char) : Option (List Char × List Char) :=
  let L := s.takeWhile isUpperAZ
  match s.dropWhile isUpperAZ with
  | c :: r2 =>
    if c = '-' then
      let D := r2.takeWhile isDigit09
      let r3 := r2.dropWhile isDigit09
      if 2 ≤ L.length && L.length ≤ 10 && !D.isEmpty && boundaryAfterB r3 then
        some (L ++ '-' :: D, r3)
      else none
    else none
  | [] => none

/-- The `\b([A-Z]{2,10}-\d+)\b` findall scan.  `prevWord` tracks whether the
character before the current position is a word character (the leading `\b`
holds iff it is not, since the token starts with a letter). -/
def inlineScanAux : Nat → List Char → Bool → List (List Char)
  | 0, _, _ => []
  | _ + 1, [], _ => []
  | fuel + 1, c :: rest, prevWord =>
    if prevWord then inlineScanAux fuel rest (isWordChar c)
    else
      match inlineMatchHead (c :: rest) with
      | some (k, r) => k :: inlineScanAux fuel r true
      | none => inlineScanAux fuel rest (isWordChar c)

/-- All bare inline keys of `text`, in match order. -/
def inlineScan (text : List Char) : List (List Char) :=
  inlineScanAux text.length text false

/-- The part of the URL pattern `https?://[^/]+/browse/([A-Z]+-\d+)` after
the protocol: the maximal nonempty host run (`[^/]+`), the literal
`/browse/`, then the captured key — maximal nonempty uppercase run, dash,
maximal nonempty digit run.  Returns the captured key and the rest. -/
def urlTail (s2 : List Char) : Option (List Char × List Char) :=
  let host := s2.takeWhile fun c => !(c = '/')
  let s3 := s2.dropWhile fun c => !(c = '/')
  if host.isEmpty then none
  else
    match matchLit "/browse/".data s3 with
    | none => none
    | some s4 =>
      let L := s4.takeWhile isUpperAZ
      match s4.dropWhile isUpperAZ with
      | c :: s6 =>
        if c = '-' then
          let D := s6.takeWhile isDigit09
          let s7 := s6.dropWhile isDigit09
          if L.isEmpty || D.isEmpty then none
          else some (L ++ '-' :: D, s7)
        else none
      | [] => none

/-- `https?://[^/]+/browse/([A-Z]+-\d+)` anchored at the head of `s`: the
literal protocol (an optional `s` is committed when present — retrying
without it would put `s` where `:` is demanded), `://`, then `urlTail`. -/
def urlMatchHead (s : List Char) : Option (List Char × List Char) :=
  match matchLit "http".data s with
  | none => none
  | some s1 =>
    let s1' := if s1.head? = some 's' then s1.tail else s1
    match matchLit "://".data s1' with
    | none => none
    | some s2 => urlTail s2

/-- The URL-pattern findall scan. -/
def urlScanAux : Nat → List Char → List (List Char)
  | 0, _ => []
  | _ + 1, [] => []
  | fuel + 1, c :: rest =>
    match urlMatchHead (c :: rest) with
    | some (k, r) => k :: urlScanAux fuel r
    | none => urlScanAux fuel rest

/-- All URL-embedded keys of `text`, in match order. -/
def urlScan (text : List Char) : List (List Char) :=
  urlScanAux text.length text

/-- `extract_jira_keys` (source lines 1315-1340), on the file's text.  The
Python code unions both findall passes into a set and returns `list(set)`
(whose order is interpreter-chosen); the embedding returns the concatenation
of the two passes, and claims about the extractor are membership (set)
statements.  The `try`/`except` around the file read cannot fire here
because the text is already given; an unreadable file yields the empty
set. -/
def extract_jira_keys (content : List Char) : List (List Char) :=
  urlScan content ++ inlineScan content

/-- Claim-side shape of a bare inline key as the code matches it:
2-10 uppercase letters, a dash, at least one digit. -/
def isInlineKey (k : List Char) : Prop :=
  ∃ L D, k = L ++ '-' :: D ∧ 2 ≤ L.length ∧ L.length ≤ 10 ∧
    (∀ c ∈ L, isUpperAZ c = true) ∧ D ≠ [] ∧ ∀ c ∈ D, isDigit09 c = true

/-- Claim-side shape of the spec's unbounded
`UPPERCASE-LETTERS "-" DIGITS` token. -/
def isPlainKey (k : List Char) : Prop :=
  ∃ L D, k = L ++ '-' :: D ∧ 1 ≤ L.length ∧
    (∀ c ∈ L, isUpperAZ c = true) ∧ D ≠ [] ∧ ∀ c ∈ D, isDigit09 c = true

/-- Claim-side: `k` occurs in `text` as a bare inline token with word
boundaries on both sides. -/
def bareInlineOccurs (text k : List Char) : Prop :=
  isInlineKey k ∧
    ∃ pre post, text = pre ++ k ++ post ∧
      (pre = [] ∨ ∃ c, pre.getLast? = some c ∧ isWordChar c = false) ∧
      boundaryAfterB post = true

/-- Claim-side: `k` occurs in `text` embedded in an issue-browse hyperlink:
`http[s]://<host>/browse/<k>` with a slash-free nonempty host, `k` of shape
uppercase-letters `-` digits, the digit run maximal. -/
def urlKeyOccurs (text k : List Char) : Prop :=
  ∃ pre sOpt host L D post,
    text = pre ++ "http".data ++ sOpt ++ "://".data ++ host ++
      "/browse/".data ++ L ++ '-' :: D ++ post ∧
    (sOpt = [] ∨ sOpt = ['s']) ∧ host ≠ [] ∧ (∀ c ∈ host, c ≠ '/') ∧
    L ≠ [] ∧ (∀ c ∈ L, isUpperAZ c = true) ∧ D ≠ [] ∧
    (∀ c ∈ D, isDigit09 c = true) ∧
    (∀ c, post.head? = some c → isDigit09 c = false) ∧
    k = L ++ '-' :: D

end LogbookSync

namespace LogbookSync

/-!
## Claims about the Gap Detector
-/

/-- Auxiliary: the comment check only ever emits `comment`-typed
suggestions, so filtering `detect_jira_gaps` by another type drops it. -/
theorem commentCheck_filter_ne (today : String) (task : TaskData)
    (js : JiraState) (entries : List ProgressEntry) (ty : String)
    (h : (("comment" : String) == ty) = false) :
    (commentCheck today task js entries).filter (fun s => s.type == ty) = [] := by
  unfold commentCheck
  cases entries with
  | nil => rfl
  | cons e es =>
    dsimp only
    split
    · split
      · simp [List.filter, h]
      · rfl
    · rfl

/-- Auxiliary: the due-date check only ever emits `due_date`-typed
suggestions. -/
theorem dueDateCheck_filter_ne (task : TaskData) (js : JiraState) (ty : String)
    (h : (("due_date" : String) == ty) = false) :
    (dueDateCheck task js).filter (fun s => s.type == ty) = [] := by
  unfold dueDateCheck
  split
  · simp [List.filter, h]
  · split
    · simp [List.filter, h]
    · rfl

/-- Auxiliary: the status check only ever emits `transition`-typed
suggestions. -/
theorem statusCheck_filter_ne (task : TaskData) (js : JiraState) (ty : String)
    (h : (("transition" : String) == ty) = false) :
    (statusCheck task js).filter (fun s => s.type == ty) = [] := by
  unfold statusCheck
  split
  · simp [List.filter, h]
  · rfl

/-- C5: for every (record, snapshot) pair, the transition candidates of
`detect_jira_gaps` are exactly one candidate
`{current := remote status literal, suggested := "Done", confidence := high}`
when the local status is the done status and the lower-cased remote status is
none of `done`/`closed`/`resolved`, and none otherwise. -/
theorem detect_transition_characterization (today : String) (task : TaskData)
    (js : JiraState) (entries : List ProgressEntry) :
    (detect_jira_gaps today task js entries).filter
        (fun s => s.type == "transition") =
      if task.status = doneStatus ∧
          ¬ strLower js.status ∈ ["done", "closed", "resolved"] then
        [{ type := "transition", current := js.status, suggested := "Done",
           reason := "Local task is marked done but Jira is not",
           confidence := "high" }]
      else [] := by
  unfold detect_jira_gaps
  rw [List.filter_append, List.filter_append,
    commentCheck_filter_ne _ _ _ _ _ (by decide),
    dueDateCheck_filter_ne _ _ _ (by decide)]
  unfold statusCheck
  split
  · simp [List.filter]
  · rfl

/-- C6 counterexample: with a local due date and no remote one, the emitted
candidate's `current` field is the literal `"Not set"` (capital N, source
line 1543), not the `"not set"` the claim states. -/
theorem detect_dueDate_not_set_cex :
    detect_jira_gaps "2025-01-10" ⟨"", "2025-01-16", "", ""⟩
        ⟨"In Progress", "", ""⟩ [] =
      [{ type := "due_date", current := "Not set", suggested := "2025-01-16",
         reason := "Jira has no due date but task has one",
         confidence := "medium" }] ∧
    ("Not set" : String) ≠ "not set" := by
  constructor
  · decide
  · decide

/-- C6 as amended: the due-date candidates of `detect_jira_gaps` are exactly
one candidate with `current` the remote value when both due dates are set and
textually differ, exactly one with `current = "Not set"` when only the local
one is set, and none otherwise (both unset, equal, or only remote set). -/
theorem detect_dueDate_characterization (today : String) (task : TaskData)
    (js : JiraState) (entries : List ProgressEntry) :
    (detect_jira_gaps today task js entries).filter
        (fun s => s.type == "due_date") =
      if task.due_date ≠ "" ∧ js.due_date ≠ "" ∧ task.due_date ≠ js.due_date then
        [{ type := "due_date", current := js.due_date,
           suggested := task.due_date,
           reason := "Local task due_date differs from Jira",
           confidence := "medium" }]
      else if task.due_date ≠ "" ∧ js.due_date = "" then
        [{ type := "due_date", current := "Not set",
           suggested := task.due_date,
           reason := "Jira has no due date but task has one",
           confidence := "medium" }]
      else [] := by
  unfold detect_jira_gaps
  rw [List.filter_append, List.filter_append,
    commentCheck_filter_ne _ _ _ _ _ (by decide),
    statusCheck_filter_ne _ _ _ (by decide), List.append_nil]
  unfold dueDateCheck
  split
  · simp [List.filter]
  · split
    · simp [List.filter]
    · rfl

/-- C1 counterexample: with an unsorted progress log whose maximum date lies
strictly after the remote cutoff but whose first entry does not, the detector
emits no comment candidate — against the claim, which computes `L` as the
max-by-date and requires a candidate exactly when `L` is after the cutoff. -/
theorem detect_comment_max_cex :
    maxEntryDate [⟨"2024-01-01", "a"⟩, ⟨"2024-06-01", "b"⟩] = "2024-06-01" ∧
    jiraCommentCutoff ⟨"In Progress", "", "2024-03-01T10:00:00"⟩ = "2024-03-01" ∧
    pyLt "2024-03-01" "2024-06-01" = true ∧
    detect_jira_gaps "2024-07-01" ⟨"", "", "", ""⟩
        ⟨"In Progress", "", "2024-03-01T10:00:00"⟩
        [⟨"2024-01-01", "a"⟩, ⟨"2024-06-01", "b"⟩] = [] := by
  refine ⟨by decide, by decide, by decide, by decide⟩

/-- C1 as amended: the comment check gates on the date of the *first* entry
of the parsed progress log (the code's `progress_entries[0]`, which is the
file order produced by the parser), not on the max-by-date; it emits a
comment candidate iff the list is nonempty and that first date is strictly
after the cutoff (first ten characters of the remote last-comment date, or
the sentinel `1970-01-01` when absent), and the entries collected into the
body are exactly those dated strictly after the cutoff, in parsed list order,
capped at 3. -/
theorem detect_comment_characterization (today : String) (task : TaskData)
    (js : JiraState) (entries : List ProgressEntry) :
    ((detect_jira_gaps today task js entries).filter
        (fun s => s.type == "comment") ≠ [] ↔
      ∃ e es, entries = e :: es ∧ pyLt (jiraCommentCutoff js) e.date = true) ∧
    (∀ e es, entries = e :: es → pyLt (jiraCommentCutoff js) e.date = true →
      (detect_jira_gaps today task js entries).filter
          (fun s => s.type == "comment") =
        [{ type := "comment",
           content := commentBody today task
             (collectedEntries (jiraCommentCutoff js) entries),
           reason := "Local progress since " ++ jiraCommentCutoff js,
           confidence := "high" }]) := by
  have hfilter : (detect_jira_gaps today task js entries).filter
      (fun s => s.type == "comment") = commentCheck today task js entries := by
    unfold detect_jira_gaps
    rw [List.filter_append, List.filter_append,
      dueDateCheck_filter_ne _ _ _ (by decide),
      statusCheck_filter_ne _ _ _ (by decide), List.append_nil,
      List.append_nil]
    unfold commentCheck
    cases entries with
    | nil => rfl
    | cons e es =>
      dsimp only
      split
      · split
        · simp [List.filter]
        · rfl
      · rfl
  rw [hfilter]
  constructor
  · unfold commentCheck
    cases entries with
    | nil => simp
    | cons e es =>
      dsimp only
      constructor
      · intro h
        refine ⟨e, es, rfl, ?_⟩
        by_contra hlt
        rw [if_neg (by simpa using hlt)] at h
        exact h rfl
      · rintro ⟨e', es', heq, hlt⟩
        injection heq with h1 h2
        rw [← h1] at hlt
        rw [if_pos hlt]
        have hmem : e ∈ (e :: es).filter fun x => pyLt (jiraCommentCutoff js) x.date := by
          rw [List.mem_filter]
          exact ⟨List.mem_cons_self _ _, hlt⟩
        have hne : (e :: es).filter (fun x => pyLt (jiraCommentCutoff js) x.date) ≠ [] := by
          intro hnil; rw [hnil] at hmem; exact List.not_mem_nil _ hmem
        rw [if_pos hne]
        simp
  · rintro e es rfl hlt
    unfold commentCheck collectedEntries
    dsimp only
    rw [if_pos hlt]
    have hmem : e ∈ (e :: es).filter fun x => pyLt (jiraCommentCutoff js) x.date := by
      rw [List.mem_filter]
      exact ⟨List.mem_cons_self _ _, hlt⟩
    have hne : (e :: es).filter (fun x => pyLt (jiraCommentCutoff js) x.date) ≠ [] := by
      intro hnil; rw [hnil] at hmem; exact List.not_mem_nil _ hmem
    rw [if_pos hne]

/-- C1 amended, applied: the two-entry log gated by its first entry fires and
collects exactly the entries after the cutoff, in list order, capped at 3. -/
theorem detect_comment_characterization_witness :
    (detect_jira_gaps "2024-07-01" ⟨"", "", "", ""⟩
        ⟨"In Progress", "", "2024-03-01T10:00:00"⟩
        [⟨"2024-06-01", "b"⟩, ⟨"2024-01-01", "a"⟩]).filter
        (fun s => s.type == "comment") =
      [{ type := "comment",
         content := commentBody "2024-07-01" ⟨"", "", "", ""⟩
           (collectedEntries "2024-03-01"
             [⟨"2024-06-01", "b"⟩, ⟨"2024-01-01", "a"⟩]),
         reason := "Local progress since " ++ "2024-03-01",
         confidence := "high" }] := by
  have h := (detect_comment_characterization "2024-07-01" ⟨"", "", "", ""⟩
    ⟨"In Progress", "", "2024-03-01T10:00:00"⟩
    [⟨"2024-06-01", "b"⟩, ⟨"2024-01-01", "a"⟩]).2
    ⟨"2024-06-01", "b"⟩ [⟨"2024-01-01", "a"⟩] rfl (by decide)
  simpa using h

/-- C2 counterexample: two runs of the detector on identical (record,
snapshot) inputs on different calendar days produce different candidate
lists — the comment body embeds `datetime.now()` (source lines 1483, 1511),
so `detect` is not a pure function of (record, snapshot) alone. -/
theorem detect_not_pure_in_record_snapshot_cex :
    detect_jira_gaps "2025-01-01" ⟨"", "", "", ""⟩ ⟨"", "", ""⟩
        [⟨"2024-01-02", "x"⟩] ≠
      detect_jira_gaps "2025-01-02" ⟨"", "", "", ""⟩ ⟨"", "", ""⟩
        [⟨"2024-01-02", "x"⟩] := by
  decide

/-- C2 as amended: the detector is a pure, deterministic function of the
current date together with the (record, snapshot) pair — runs on identical
inputs that also share the same `today` yield identical ordered candidate
lists, payloads included. -/
theorem detect_deterministic (today today' : String) (task task' : TaskData)
    (js js' : JiraState) (entries entries' : List ProgressEntry)
    (htoday : today = today') (htask : task = task') (hjs : js = js')
    (hentries : entries = entries') :
    detect_jira_gaps today task js entries =
      detect_jira_gaps today' task' js' entries' := by
  subst htoday htask hjs hentries
  rfl

/-- C2 amended, applied at a concrete run. -/
theorem detect_deterministic_witness :
    detect_jira_gaps "2025-01-01" ⟨"", "", "", ""⟩ ⟨"", "", ""⟩
        [⟨"2024-01-02", "x"⟩] =
      detect_jira_gaps "2025-01-01" ⟨"", "", "", ""⟩ ⟨"", "", ""⟩
        [⟨"2024-01-02", "x"⟩] :=
  detect_deterministic "2025-01-01" "2025-01-01" ⟨"", "", "", ""⟩
    ⟨"", "", "", ""⟩ ⟨"", "", ""⟩ ⟨"", "", ""⟩ [⟨"2024-01-02", "x"⟩]
    [⟨"2024-01-02", "x"⟩] rfl rfl rfl rfl

/-- C10: with credentials configured, the due-date executor reports success
for every response of the field-update call (`return response is not None or
True`, source line 1869, is the constant true), and the transition executor
reports success for every response of the transition POST whenever a matching
transition was resolved (`return True`, source line 1919). -/
theorem executors_success_regardless_of_response :
    (∀ response : Option Unit, execute_jira_due_date true response = true) ∧
    (∀ (ts : List JiraTransition) (target : String) (t : JiraTransition)
        (postResponse : Option Unit), findTransition target ts = some t →
      execute_jira_transition true (some ts) target postResponse = true) := by
  constructor
  · intro response
    simp [execute_jira_due_date]
  · intro ts target t postResponse h
    simp [execute_jira_transition, h]

/-- C10 applied: a 204/empty response (`none`) on both calls still reports
success. -/
theorem executors_success_regardless_of_response_witness :
    execute_jira_due_date true none = true ∧
    execute_jira_transition true (some [⟨"31", "Done", "Done"⟩]) "Done" none
      = true :=
  ⟨executors_success_regardless_of_response.1 none,
    executors_success_regardless_of_response.2 [⟨"31", "Done", "Done"⟩] "Done"
      ⟨"31", "Done", "Done"⟩ none (by decide)⟩

/-!
## Claims about persistence and the review loop
-/

/-- C3 counterexample: a scan that finds no candidates persists nothing —
`jira_sync_detect` returns at source lines 1659-1661 before
`save_pending_jira_updates` is ever called, so the empty batch is *not*
saved. -/
theorem empty_batch_not_persisted_cex :
    jira_sync_detect "2025-01-05T09:00:00" [] = none := by
  rfl

/-- C3 as amended: the scan's batch is persisted exactly when it contains at
least one CardGroup; an empty scan result short-circuits `jira_sync_detect`
without persisting anything; and a persisted batch whose suggestion list is
empty makes the review loop short-circuit with nothing to do. -/
theorem batch_persistence_and_empty_short_circuit (generated : String)
    (suggestions : List CardGroup) (choose : Nat → Choice) :
    (suggestions ≠ [] →
      jira_sync_detect generated suggestions =
        some ⟨generated, suggestions⟩) ∧
    (suggestions = [] → jira_sync_detect generated suggestions = none) ∧
    jira_sync_review (some []) choose = ReviewOutcome.nothingToDo := by
  refine ⟨fun h => ?_, fun h => ?_, rfl⟩
  · simp [jira_sync_detect, save_pending_jira_updates, h]
  · simp [jira_sync_detect, h]

/-- C3 amended, applied to a one-card batch and to the empty batch. -/
theorem batch_persistence_and_empty_short_circuit_witness :
    jira_sync_detect "2025-01-05T09:00:00"
        [⟨"AB-1", "t", "u", "s", "f", "tt", []⟩] =
      some ⟨"2025-01-05T09:00:00", [⟨"AB-1", "t", "u", "s", "f", "tt", []⟩]⟩ ∧
    jira_sync_review (some []) (fun _ => Choice.quit) =
      ReviewOutcome.nothingToDo :=
  ⟨(batch_persistence_and_empty_short_circuit "2025-01-05T09:00:00"
      [⟨"AB-1", "t", "u", "s", "f", "tt", []⟩] (fun _ => Choice.quit)).1
      (by decide),
    (batch_persistence_and_empty_short_circuit "2025-01-05T09:00:00"
      [⟨"AB-1", "t", "u", "s", "f", "tt", []⟩] (fun _ => Choice.quit)).2.2⟩

/-- C4: when the operator chooses Quit while the loop presents update `u` of
the current card (remaining updates `u :: us`, subsequent cards `rest`), the
loop persists exactly the current card restricted to its not-yet-decided
updates (starting with `u`) followed by the untouched subsequent cards in
order, and halts immediately: no further feedback event, fallback, or
execution happens. -/
theorem quit_persists_exact_remainder (choose : Nat → Choice) (n : Nat)
    (c : CardGroup) (u : Suggestion) (us : List Suggestion)
    (rest : List CardGroup) (h : choose n = Choice.quit) :
    runCards choose ({ c with updates := u :: us } :: rest) n =
      ⟨[], 0, [], some ({ c with updates := u :: us } :: rest)⟩ := by
  simp [runCards, runUpdates, h]

/-- C4 applied: quitting at the first prompt of a two-card batch rewrites the
batch unchanged and produces no event, fallback, or execution. -/
theorem quit_persists_exact_remainder_witness :
    runCards (fun _ => Choice.quit)
        [⟨"AB-1", "t", "u", "s", "f", "tt", [{ type := "comment" }]⟩,
         ⟨"CD-2", "t2", "u2", "s2", "f2", "tt2", []⟩] 0 =
      ⟨[], 0, [],
        some [⟨"AB-1", "t", "u", "s", "f", "tt", [{ type := "comment" }]⟩,
              ⟨"CD-2", "t2", "u2", "s2", "f2", "tt2", []⟩]⟩ := by
  have h := quit_persists_exact_remainder (fun _ => Choice.quit) 0
    ⟨"AB-1", "t", "u", "s", "f", "tt", []⟩ { type := "comment" } []
    [⟨"CD-2", "t2", "u2", "s2", "f2", "tt2", []⟩] rfl
  simpa using h

/-- C7: when an approved update's execution fails — whether through a falsy
API result or an exception caught inside `execute_jira_update` (never
propagated) — the run emits exactly one FeedbackEvent with action `failed`
for it (and no `approved` event), makes exactly one clipboard-fallback
attempt, executes nothing for it, and then continues as the same loop on the
remaining updates. -/
theorem executor_failure_one_fallback_one_failed (choose : Nat → Choice)
    (n : Nat) (c : CardGroup) (u : Suggestion) (us : List Suggestion)
    (rest : List CardGroup) (outcome : ExecOutcome)
    (h1 : choose n = Choice.approve outcome)
    (h2 : (executeJiraUpdate outcome).1 = false) :
    runCards choose ({ c with updates := u :: us } :: rest) n =
      (fun cont => ⟨(u.type, "failed") :: cont.events, 1 + cont.fallbacks,
          cont.executed, cont.persisted⟩)
        (runCards choose ({ c with updates := us } :: rest) (n + 1)) := by
  have hfb : (executeJiraUpdate outcome).2 = 1 := by
    cases outcome with
    | ok => simp [executeJiraUpdate] at h2
    | apiFail => rfl
    | exn => rfl
  show runCards choose ({ c with updates := u :: us } :: rest) n = _
  simp only [runCards, runUpdates, h1, h2, hfb, Bool.false_eq_true, if_false]
  cases hq : (runUpdates choose us (n + 1)).quitRemaining with
  | some rem => simp [runCards, hq]
  | none => simp [runCards, hq, Nat.add_assoc, List.cons_append]

/-!
## Claims about the audit logger
-/

/-- `pySplitAux` never returns an empty part list. -/
theorem pySplitAux_ne_nil (sep : List Char) :
    ∀ fuel s acc, pySplitAux sep fuel s acc ≠ [] := by
  intro fuel
  induction fuel with
  | zero =>
    intro s acc
    cases s with
    | nil => simp [pySplitAux]
    | cons c rest => simp [pySplitAux]
  | succ fuel ih =>
    intro s acc
    cases s with
    | nil => simp [pySplitAux]
    | cons c rest =>
      rw [pySplitAux]
      split
      · simp
      · exact ih rest (c :: acc)

/-- A singleton result of `pySplitAux` is the accumulator followed by the
rest of the input. -/
theorem pySplitAux_singleton (sep : List Char) :
    ∀ fuel s acc y, s.length ≤ fuel → pySplitAux sep fuel s acc = [y] →
      y = acc.reverse ++ s := by
  intro fuel
  induction fuel with
  | zero =>
    intro s acc y hlen h
    cases s with
    | nil =>
      rw [pySplitAux] at h
      simp at h
      simp [← h]
    | cons c rest => simp at hlen
  | succ fuel ih =>
    intro s acc y hlen h
    cases s with
    | nil =>
      rw [pySplitAux] at h
      simp at h
      simp [← h]
    | cons c rest =>
      rw [pySplitAux] at h
      split at h
      · injection h with h1 h2
        exact absurd h2 (pySplitAux_ne_nil sep fuel _ _)
      · have := ih rest (c :: acc) y
          (by simpa using Nat.le_of_succ_le_succ hlen) h
        simpa [List.append_assoc] using this

/-- A two-part result of `pySplitAux` splits the input around exactly one
occurrence of the (nonempty) separator. -/
theorem pySplitAux_pair (sep : List Char) (hsep : sep ≠ []) :
    ∀ fuel s acc x b, s.length ≤ fuel → pySplitAux sep fuel s acc = [x, b] →
      acc.reverse ++ s = x ++ sep ++ b := by
  intro fuel
  induction fuel with
  | zero =>
    intro s acc x b hlen h
    cases s with
    | nil => simp [pySplitAux] at h
    | cons c rest => simp at hlen
  | succ fuel ih =>
    intro s acc x b hlen h
    cases s with
    | nil => simp [pySplitAux] at h
    | cons c rest =>
      rw [pySplitAux] at h
      split at h
      case isTrue hpre =>
        obtain ⟨t, ht⟩ : sep <+: c :: rest := List.isPrefixOf_iff_prefix.mp hpre
        injection h with h1 htail
        have hx : x = acc.reverse := h1.symm
        have hdrop : List.drop sep.length (c :: rest) = t := by
          rw [← ht]; exact List.drop_left sep t
        have hblen : t.length ≤ fuel := by
          have h1 : (c :: rest).length = sep.length + t.length := by
            rw [← ht, List.length_append]
          have h2 : 1 ≤ sep.length := by
            cases sep with
            | nil => exact absurd rfl hsep
            | cons _ _ => simp
          omega
        have hb : b = t := by
          have := pySplitAux_singleton sep fuel t [] b hblen (hdrop ▸ htail)
          simpa using this
        rw [hx, hb, ← ht, ← List.append_assoc]
      case isFalse hpre =>
        have := ih rest (c :: acc) x b
          (by simpa using Nat.le_of_succ_le_succ hlen) h
        simpa [List.append_assoc] using this

/-- A two-part `pySplit` recovers the input: the separator occurs exactly
once and the parts are its left and right context. -/
theorem pySplit_pair (sep s a b : List Char) (hsep : sep ≠ [])
    (h : pySplit sep s = [a, b]) : s = a ++ sep ++ b := by
  have := pySplitAux_pair sep hsep s.length s [] a b le_rfl h
  simpa using this

/-- C8 counterexample: a record whose text contains the note-log header
twice is not patched at all — `log_to_task_progress` requires
`len(parts) == 2` (source line 2000) and silently writes nothing otherwise —
so a successfully executed update gets no audit line inserted. -/
theorem audit_log_duplicate_header_cex :
    log_to_task_progress ("## Progress Log\n- old\n## Progress Log\n".data)
      (mkLogEntry "2025-01-02" "AB-1" { type := "comment" }).data = none := by
  decide

/-- C8 as amended: when the record's text contains the note-log header
exactly once and a newline follows it (at relative index `k`), the audit
logger writes exactly the old text with the audit line
`- <today>: [Jira Sync] <type-specific summary>` plus a newline spliced in
immediately after that first newline — every other character is preserved,
before and after the insertion point; and when the header is absent or
occurs more than once the record is not written at all. -/
theorem audit_log_single_insertion (today jiraKey : String) (u : Suggestion)
    (content before after : List Char) (k : Nat)
    (hsplit : pySplit progressHeader content = [before, after])
    (hnl : after.findIdx? (· == '\n') = some k) :
    content = before ++ progressHeader ++ after ∧
    log_to_task_progress content (mkLogEntry today jiraKey u).data =
      some (content.take (before.length + progressHeader.length + (k + 1)) ++
        (mkLogEntry today jiraKey u).data ++
        '\n' :: content.drop
          (before.length + progressHeader.length + (k + 1))) ∧
    (∀ c e : List Char, (pySplit progressHeader c).length ≠ 2 →
      log_to_task_progress c e = none) := by
  have hcontent : content = before ++ progressHeader ++ after :=
    pySplit_pair progressHeader content before after (by decide) hsplit
  refine ⟨hcontent, ?_, ?_⟩
  · have h1 : content = (before ++ progressHeader) ++ after := by
      rw [hcontent, List.append_assoc]
    have h2 : before.length + progressHeader.length + (k + 1) =
        (before ++ progressHeader).length + (k + 1) := by
      rw [List.length_append]
    have htake : content.take (before.length + progressHeader.length + (k + 1))
        = before ++ progressHeader ++ after.take (k + 1) := by
      rw [h1, h2, List.take_append (k + 1), List.append_assoc]
    have hdrop : content.drop (before.length + progressHeader.length + (k + 1))
        = after.drop (k + 1) := by
      rw [h1, h2, List.drop_append (k + 1)]
    rw [htake, hdrop]
    unfold log_to_task_progress
    rw [hsplit]
    simp only [hnl]
  · intro c e hne
    unfold log_to_task_progress
    split
    · rename_i heq
      rw [heq] at hne
      simp at hne
    · rfl

/-- C8 amended, applied: a well-formed record is patched with the comment
audit line right after the header's newline, everything else unchanged. -/
theorem audit_log_single_insertion_witness :
    log_to_task_progress ("# T\n## Progress Log\n- old\n".data)
        (mkLogEntry "2025-01-02" "AB-1" { type := "comment" }).data =
      some (("# T\n## Progress Log\n- old\n".data).take
          ("# T\n".data.length + progressHeader.length + (0 + 1)) ++
        (mkLogEntry "2025-01-02" "AB-1" { type := "comment" }).data ++
        '\n' :: ("# T\n## Progress Log\n- old\n".data).drop
          ("# T\n".data.length + progressHeader.length + (0 + 1))) :=
  (audit_log_single_insertion "2025-01-02" "AB-1" { type := "comment" }
    ("# T\n## Progress Log\n- old\n".data) ("# T\n".data) ("\n- old\n".data) 0
    (by decide) (by decide)).2.1

/-!
## Key-extractor lemmas

Character-class facts, `takeWhile`/`dropWhile` algebra over runs, and the
`matchLit` characterisation, used to relate the findall scanners to the
declarative occurrence predicates.
-/

theorem word_of_upper {c : Char} (h : isUpperAZ c = true) :
    isWordChar c = true := by
  simp [isWordChar, h]

theorem word_of_digit {c : Char} (h : isDigit09 c = true) :
    isWordChar c = true := by
  simp [isWordChar, h]

theorem not_digit_of_upper {c : Char} (h : isUpperAZ c = true) :
    isDigit09 c = false := by
  cases hd : isDigit09 c with
  | false => rfl
  | true =>
    exfalso
    simp only [isUpperAZ, Bool.and_eq_true, decide_eq_true_eq] at h
    simp only [isDigit09, Bool.and_eq_true, decide_eq_true_eq] at hd
    omega

theorem not_upper_of_digit {c : Char} (h : isDigit09 c = true) :
    isUpperAZ c = false := by
  cases hd : isUpperAZ c with
  | false => rfl
  | true =>
    exfalso
    simp only [isDigit09, Bool.and_eq_true, decide_eq_true_eq] at h
    simp only [isUpperAZ, Bool.and_eq_true, decide_eq_true_eq] at hd
    omega

theorem upper_ne_slash {c : Char} (h : isUpperAZ c = true) : c ≠ '/' := by
  intro hc; subst hc; simp [isUpperAZ] at h

theorem digit_ne_slash {c : Char} (h : isDigit09 c = true) : c ≠ '/' := by
  intro hc; subst hc; simp [isDigit09] at h

theorem upper_ne_h {c : Char} (h : isUpperAZ c = true) : c ≠ 'h' := by
  intro hc; subst hc; simp [isUpperAZ] at h

theorem digit_ne_h {c : Char} (h : isDigit09 c = true) : c ≠ 'h' := by
  intro hc; subst hc; simp [isDigit09] at h

theorem takeWhile_append_of_all {p : Char → Bool} {A B : List Char}
    (h : ∀ c ∈ A, p c = true) :
    (A ++ B).takeWhile p = A ++ B.takeWhile p := by
  induction A with
  | nil => simp
  | cons a A ih =>
    have ha := h a (List.mem_cons_self _ _)
    simp only [List.cons_append, List.takeWhile_cons, ha, if_true,
      ih fun c hc => h c (List.mem_cons_of_mem _ hc)]

theorem dropWhile_append_of_all {p : Char → Bool} {A B : List Char}
    (h : ∀ c ∈ A, p c = true) : (A ++ B).dropWhile p = B.dropWhile p := by
  induction A with
  | nil => simp
  | cons a A ih =>
    have ha := h a (List.mem_cons_self _ _)
    simp only [List.cons_append, List.dropWhile_cons, ha, if_true]
    exact ih fun c hc => h c (List.mem_cons_of_mem _ hc)

theorem takeWhile_nil_of_head {p : Char → Bool} {B : List Char}
    (h : ∀ c, B.head? = some c → p c = false) : B.takeWhile p = [] := by
  cases B with
  | nil => rfl
  | cons b B => simp [List.takeWhile_cons, h b rfl]

theorem dropWhile_self_of_head {p : Char → Bool} {B : List Char}
    (h : ∀ c, B.head? = some c → p c = false) : B.dropWhile p = B := by
  cases B with
  | nil => rfl
  | cons b B => simp [List.dropWhile_cons, h b rfl]

theorem matchLit_eq_some {lit : List Char} :
    ∀ {s t : List Char}, matchLit lit s = some t ↔ s = lit ++ t := by
  induction lit with
  | nil =>
    intro s t
    simp only [matchLit, Option.some.injEq, List.nil_append]
  | cons l ls ih =>
    intro s t
    cases s with
    | nil => simp [matchLit]
    | cons c cs =>
      simp only [matchLit]
      split
      case isTrue hc =>
        subst hc
        rw [ih]
        simp
      case isFalse hc =>
        simp only [List.cons_append, List.cons.injEq]
        constructor
        · intro h; cases h
        · rintro ⟨h1, -⟩; exact absurd h1 hc

/-- Soundness of the anchored inline matcher: a match is a well-shaped key
that prefixes the input, with a trailing word boundary. -/
theorem inlineMatchHead_some {s k r : List Char}
    (h : inlineMatchHead s = some (k, r)) :
    isInlineKey k ∧ s = k ++ r ∧ boundaryAfterB r = true := by
  unfold inlineMatchHead at h
  rcases hd : s.dropWhile isUpperAZ with _ | ⟨c, r2⟩
  · rw [hd] at h; simp at h
  · rw [hd] at h
    dsimp only at h
    split at h
    case isFalse => simp at h
    case isTrue hc =>
      subst hc
      split at h
      case isFalse => simp at h
      case isTrue hcond =>
        simp only [Bool.and_eq_true, decide_eq_true_eq, Bool.not_eq_eq_eq_not,
          Bool.not_true, List.isEmpty_eq_false] at hcond
        obtain ⟨⟨⟨hL2, hL10⟩, hDne⟩, hb⟩ := hcond
        injection h with h'
        obtain ⟨hk, hr⟩ := Prod.mk.injEq .. |>.mp h'
        subst hk hr
        refine ⟨⟨s.takeWhile isUpperAZ, r2.takeWhile isDigit09, rfl, hL2, hL10,
          fun c hc => List.mem_takeWhile_imp hc, hDne,
          fun c hc => List.mem_takeWhile_imp hc⟩, ?_, hb⟩
        have hs : s.takeWhile isUpperAZ ++ s.dropWhile isUpperAZ = s :=
          List.takeWhile_append_dropWhile isUpperAZ s
        have hr2 : r2.takeWhile isDigit09 ++ r2.dropWhile isDigit09 = r2 :=
          List.takeWhile_append_dropWhile isDigit09 r2
        have hrec : (s.takeWhile isUpperAZ ++ '-' :: r2.takeWhile isDigit09) ++
            r2.dropWhile isDigit09 = s := by
          rw [List.append_assoc, List.cons_append, hr2, ← hd]
          exact hs
        exact hrec.symm

/-- Completeness of the anchored inline matcher: a well-shaped key followed
by a word boundary is matched exactly. -/
theorem inlineMatchHead_of_shape {L D r : List Char}
    (hL2 : 2 ≤ L.length) (hL10 : L.length ≤ 10)
    (hLu : ∀ c ∈ L, isUpperAZ c = true)
    (hD : D ≠ []) (hDd : ∀ c ∈ D, isDigit09 c = true)
    (hb : boundaryAfterB r = true) :
    inlineMatchHead (L ++ '-' :: (D ++ r)) = some (L ++ '-' :: D, r) := by
  have hnd : ∀ c, r.head? = some c → isDigit09 c = false := by
    intro c hc
    cases r with
    | nil => simp at hc
    | cons a t =>
      simp only [List.head?_cons, Option.some.injEq] at hc
      subst hc
      simp only [boundaryAfterB, Bool.not_eq_eq_eq_not, Bool.not_true] at hb
      cases hdig : isDigit09 a with
      | false => rfl
      | true => rw [word_of_digit hdig] at hb; cases hb
  have h1 : (L ++ '-' :: (D ++ r)).takeWhile isUpperAZ = L := by
    rw [takeWhile_append_of_all hLu]
    simp [List.takeWhile_cons, isUpperAZ]
  have h2 : (L ++ '-' :: (D ++ r)).dropWhile isUpperAZ = '-' :: (D ++ r) := by
    rw [dropWhile_append_of_all hLu]
    simp [List.dropWhile_cons, isUpperAZ]
  have h3 : (D ++ r).takeWhile isDigit09 = D := by
    rw [takeWhile_append_of_all hDd, takeWhile_nil_of_head hnd, List.append_nil]
  have h4 : (D ++ r).dropWhile isDigit09 = r := by
    rw [dropWhile_append_of_all hDd, dropWhile_self_of_head hnd]
  unfold inlineMatchHead
  rw [h2]
  dsimp only
  rw [if_pos rfl, h1, h3, h4]
  rw [if_pos]
  simp only [Bool.and_eq_true, decide_eq_true_eq, Bool.not_eq_eq_eq_not,
    Bool.not_true, List.isEmpty_eq_false]
  exact ⟨⟨⟨hL2, hL10⟩, hD⟩, hb⟩

/-- An inline key is a nonempty list starting with an uppercase letter. -/
theorem isInlineKey_head {k : List Char} (h : isInlineKey k) :
    ∃ c t, k = c :: t ∧ isUpperAZ c = true := by
  obtain ⟨L, D, hk, hL2, -, hLu, -, -⟩ := h
  cases L with
  | nil => simp at hL2
  | cons l L' =>
    exact ⟨l, L' ++ '-' :: D, by simp [hk], hLu l (List.mem_cons_self _ _)⟩

/-- An inline key ends in a digit. -/
theorem isInlineKey_getLast {k : List Char} (h : isInlineKey k) :
    ∃ c, k.getLast? = some c ∧ isDigit09 c = true := by
  obtain ⟨L, D, hk, -, -, -, hD, hDd⟩ := h
  have h1 : k.getLast? = D.getLast? := by
    rw [hk]
    rw [List.getLast?_append_of_ne_nil L (by simp)]
    have : ('-' :: D : List Char) = ['-'] ++ D := rfl
    rw [this, List.getLast?_append_of_ne_nil _ hD]
  cases D with
  | nil => exact absurd rfl hD
  | cons d t =>
    refine ⟨(d :: t).getLast (by simp), ?_, ?_⟩
    · rw [h1, List.getLast?_eq_getLast _ (by simp)]
    · exact hDd _ (List.getLast_mem _)

/-- Splitting an inline-key span at an interior word boundary is impossible
except exactly after the dash: if `A ++ B` lays out uppercase letters, a
dash, then digits, and `A` is nonempty with a non-word last character, then
`A` is the letters plus the dash and `B` the digits. -/
theorem boundary_split :
    ∀ (L A B D : List Char), A ++ B = L ++ '-' :: D →
      (∀ c ∈ L, isUpperAZ c = true) → (∀ c ∈ D, isDigit09 c = true) →
      A ≠ [] → (∀ c, A.getLast? = some c → isWordChar c = false) →
      A = L ++ ['-'] ∧ B = D := by
  intro L
  induction L with
  | nil =>
    intro A B D heq hLu hDd hAne hAb
    cases A with
    | nil => exact absurd rfl hAne
    | cons a A' =>
      simp only [List.nil_append, List.cons_append, List.cons.injEq] at heq
      obtain ⟨rfl, heq2⟩ := heq
      cases A' with
      | nil => simp_all
      | cons a2 A'' =>
        exfalso
        have hlast : (a2 :: A'').getLast? = some ((a2 :: A'').getLast (by simp)) :=
          List.getLast?_eq_getLast _ (by simp)
        have hmem : (a2 :: A'').getLast (by simp) ∈ (a2 :: A'') :=
          List.getLast_mem _
        have hmemD : (a2 :: A'').getLast (by simp) ∈ D := by
          rw [← heq2]
          exact List.mem_append_left _ hmem
        have hword := word_of_digit (hDd _ hmemD)
        have hAlast : ('-' :: a2 :: A'' : List Char).getLast? =
            (a2 :: A'').getLast? := by
          have : ('-' :: a2 :: A'' : List Char) = ['-'] ++ (a2 :: A'') := rfl
          rw [this, List.getLast?_append_of_ne_nil _ (by simp)]
        have := hAb _ (by rw [hAlast, hlast])
        rw [hword] at this
        cases this
  | cons l L' ih =>
    intro A B D heq hLu hDd hAne hAb
    cases A with
    | nil => exact absurd rfl hAne
    | cons a A' =>
      simp only [List.cons_append, List.cons.injEq] at heq
      obtain ⟨rfl, heq2⟩ := heq
      cases A' with
      | nil =>
        exfalso
        have := hAb a rfl
        rw [word_of_upper (hLu a (List.mem_cons_self _ _))] at this
        cases this
      | cons a2 A'' =>
        have hub : ∀ c, (a2 :: A'').getLast? = some c → isWordChar c = false := by
          intro c hc
          refine hAb c ?_
          have : (a :: a2 :: A'' : List Char) = [a] ++ (a2 :: A'') := rfl
          rw [this, List.getLast?_append_of_ne_nil _ (by simp)]
          exact hc
        obtain ⟨hA', hB⟩ := ih (a2 :: A'') B D heq2
          (fun c hc => hLu c (List.mem_cons_of_mem _ hc)) hDd (by simp) hub
        refine ⟨?_, hB⟩
        rw [List.cons_append, hA']

/-- A successful inline match strictly shrinks the input. -/
theorem inlineMatchHead_lt {s k r : List Char}
    (h : inlineMatchHead s = some (k, r)) : r.length < s.length := by
  obtain ⟨hkey, hs, -⟩ := inlineMatchHead_some h
  obtain ⟨c, t, hk, -⟩ := isInlineKey_head hkey
  rw [hs, hk]
  simp only [List.cons_append, List.length_cons, List.length_append]
  omega

/-- Soundness of the inline findall scan: every emitted key occurs in the
input with the advertised shape and word boundaries (`prevWord` abstracts
the character preceding the scanned suffix). -/
theorem inlineScanAux_sound :
    ∀ fuel s prevWord k, s.length ≤ fuel →
      k ∈ inlineScanAux fuel s prevWord →
      ∃ pre post, s = pre ++ k ++ post ∧ isInlineKey k ∧
        boundaryAfterB post = true ∧
        ((pre = [] ∧ prevWord = false) ∨
          (∃ c, pre.getLast? = some c ∧ isWordChar c = false)) := by
  intro fuel
  induction fuel with
  | zero => intro s prevWord k _ hmem; simp [inlineScanAux] at hmem
  | succ fuel ih =>
    intro s prevWord k hlen hmem
    cases s with
    | nil => simp [inlineScanAux] at hmem
    | cons c rest =>
      rw [inlineScanAux] at hmem
      by_cases hw : prevWord
      · rw [if_pos hw] at hmem
        obtain ⟨pre', post, hrest, hkey, hb, hdisj⟩ :=
          ih rest (isWordChar c) k (by simpa using Nat.le_of_succ_le_succ hlen)
            hmem
        refine ⟨c :: pre', post, by simp [hrest], hkey, hb, Or.inr ?_⟩
        rcases hdisj with ⟨rfl, hcw⟩ | ⟨d, hd, hdw⟩
        · exact ⟨c, rfl, hcw⟩
        · refine ⟨d, ?_, hdw⟩
          have hne : pre' ≠ [] := by
            intro hnil; rw [hnil] at hd; simp at hd
          have : (c :: pre' : List Char) = [c] ++ pre' := rfl
          rw [this, List.getLast?_append_of_ne_nil _ hne]
          exact hd
      · rw [if_neg hw] at hmem
        rw [Bool.not_eq_true] at hw
        subst hw
        cases hm : inlineMatchHead (c :: rest) with
        | none =>
          rw [hm] at hmem
          obtain ⟨pre', post, hrest, hkey, hb, hdisj⟩ :=
            ih rest (isWordChar c) k
              (by simpa using Nat.le_of_succ_le_succ hlen) hmem
          refine ⟨c :: pre', post, by simp [hrest], hkey, hb, Or.inr ?_⟩
          rcases hdisj with ⟨rfl, hcw⟩ | ⟨d, hd, hdw⟩
          · exact ⟨c, rfl, hcw⟩
          · refine ⟨d, ?_, hdw⟩
            have hne : pre' ≠ [] := by
              intro hnil; rw [hnil] at hd; simp at hd
            have : (c :: pre' : List Char) = [c] ++ pre' := rfl
            rw [this, List.getLast?_append_of_ne_nil _ hne]
            exact hd
        | some kr =>
          obtain ⟨k0, r⟩ := kr
          rw [hm] at hmem
          obtain ⟨hk0key, hs0, hb0⟩ := inlineMatchHead_some hm
          rcases List.mem_cons.mp hmem with rfl | hmem'
          · exact ⟨[], r, by simpa using hs0, hk0key, hb0, Or.inl ⟨rfl, rfl⟩⟩
          · have hrlen : r.length ≤ fuel := by
              have := inlineMatchHead_lt hm
              simp only [List.length_cons] at this hlen
              omega
            obtain ⟨pre', post, hr, hkey, hb, hdisj⟩ :=
              ih r true k hrlen hmem'
            rcases hdisj with ⟨-, habs⟩ | ⟨d, hd, hdw⟩
            · cases habs
            · have hne : pre' ≠ [] := by
                intro hnil; rw [hnil] at hd; simp at hd
              refine ⟨k0 ++ pre', post, ?_, hkey, hb, Or.inr ⟨d, ?_, hdw⟩⟩
              · rw [hs0, hr]; simp [List.append_assoc]
              · rw [List.getLast?_append_of_ne_nil _ hne]; exact hd

/-- Completeness of the inline findall scan: every occurrence of a
well-shaped key with word boundaries is emitted.  The two non-trivial cases
are occurrences that would start strictly inside an earlier match (impossible
by `boundary_split`: the only interior non-word position is the dash, where a
digit, not a letter, follows) or exactly at its end (impossible: the match
ends in a digit, a word character, so the leading boundary fails). -/
theorem inlineScanAux_complete :
    ∀ fuel s prevWord pre k post, s.length ≤ fuel →
      s = pre ++ k ++ post → isInlineKey k → boundaryAfterB post = true →
      ((pre = [] ∧ prevWord = false) ∨
        (∃ c, pre.getLast? = some c ∧ isWordChar c = false)) →
      k ∈ inlineScanAux fuel s prevWord := by
  intro fuel
  induction fuel with
  | zero =>
    intro s prevWord pre k post hlen hs hkey hb hdisj
    exfalso
    obtain ⟨c, t, hk, -⟩ := isInlineKey_head hkey
    rw [hs, hk] at hlen
    simp at hlen
  | succ fuel ih =>
    intro s prevWord pre k post hlen hs hkey hb hdisj
    cases pre with
    | nil =>
      have hpw : prevWord = false := by
        rcases hdisj with ⟨-, h⟩ | ⟨c, hc, -⟩
        · exact h
        · simp at hc
      subst hpw
      obtain ⟨L, D, hk, hL2, hL10, hLu, hD, hDd⟩ := hkey
      have hm0 : inlineMatchHead (L ++ '-' :: (D ++ post)) =
          some (L ++ '-' :: D, post) :=
        inlineMatchHead_of_shape hL2 hL10 hLu hD hDd hb
      cases L with
      | nil => simp at hL2
      | cons l L' =>
        have hs3 : s = l :: (L' ++ '-' :: (D ++ post)) := by
          rw [hs, hk]; simp
        rw [hs3, inlineScanAux, if_neg (by simp)]
        have hm1 : inlineMatchHead (l :: (L' ++ '-' :: (D ++ post))) =
            some ((l :: L') ++ '-' :: D, post) := by
          rw [show (l :: (L' ++ '-' :: (D ++ post)) : List Char) =
            (l :: L') ++ '-' :: (D ++ post) by simp]
          exact hm0
        rw [hm1, hk]
        exact List.mem_cons_self _ _
    | cons p pre' =>
      have hs2 : s = p :: (pre' ++ k ++ post) := by rw [hs]; simp
      have hlen' : (pre' ++ k ++ post).length ≤ fuel := by
        rw [hs2] at hlen
        simpa using Nat.le_of_succ_le_succ hlen
      have hAb : ∀ c, (p :: pre').getLast? = some c → isWordChar c = false := by
        rcases hdisj with ⟨habs, -⟩ | ⟨c, hc, hcw⟩
        · cases habs
        · intro c' hc'
          rw [hc'] at hc
          injection hc with hc
          rwa [hc]
      have hdisj' : (pre' = [] ∧ isWordChar p = false) ∨
          (∃ c, pre'.getLast? = some c ∧ isWordChar c = false) := by
        cases pre' with
        | nil => exact Or.inl ⟨rfl, hAb p rfl⟩
        | cons q pre'' =>
          refine Or.inr ⟨(q :: pre'').getLast (by simp), ?_,
            hAb _ ?_⟩
          · exact List.getLast?_eq_getLast _ (by simp)
          · have : (p :: q :: pre'' : List Char) = [p] ++ (q :: pre'') := rfl
            rw [this, List.getLast?_append_of_ne_nil _ (by simp),
              List.getLast?_eq_getLast _ (by simp)]
      rw [hs2, inlineScanAux]
      by_cases hw : prevWord
      · rw [if_pos hw]
        exact ih _ _ pre' k post hlen' rfl hkey hb hdisj'
      · rw [if_neg hw]
        cases hm : inlineMatchHead (p :: (pre' ++ k ++ post)) with
        | none => exact ih _ _ pre' k post hlen' rfl hkey hb hdisj'
        | some kr =>
          obtain ⟨k0, r⟩ := kr
          obtain ⟨hk0, hs0, hb0⟩ := inlineMatchHead_some hm
          have heq : (p :: pre') ++ (k ++ post) = k0 ++ r := by
            simpa using hs0
          have hlastk0 : p :: pre' = k0 → False := by
            intro hpe
            obtain ⟨d, hd, hdd⟩ := isInlineKey_getLast hk0
            rw [← hpe] at hd
            have := hAb d hd
            rw [word_of_digit hdd] at this
            cases this
          rcases List.append_eq_append_iff.mp heq with ⟨e, hk0e, hke⟩ |
            ⟨e, hpre, hr⟩
          · cases e with
            | nil => exact (hlastk0 (by simp [hk0e])).elim
            | cons e1 e' =>
              exfalso
              obtain ⟨L0, D0, hk0shape, hL02, hL010, hL0u, hD0, hD0d⟩ := hk0
              have hABsplit : (p :: pre') ++ (e1 :: e') = L0 ++ '-' :: D0 := by
                rw [← hk0e, hk0shape]
              obtain ⟨hA, hB⟩ := boundary_split L0 (p :: pre') (e1 :: e') D0
                hABsplit hL0u hD0d (by simp) hAb
              obtain ⟨ck, tk, hkc, hku⟩ := isInlineKey_head hkey
              rw [hkc] at hke
              have hheads : ck = e1 := by
                have := congrArg List.head? hke
                simpa using this
              have hdig : isDigit09 e1 = true := by
                refine hD0d e1 ?_
                rw [← hB]
                exact List.mem_cons_self _ _
              rw [← hheads] at hdig
              rw [not_digit_of_upper hku] at hdig
              cases hdig
          · cases e with
            | nil => exact (hlastk0 (by simpa using hpre)).elim
            | cons e1 e' =>
              have hrlen : r.length ≤ fuel := by
                have := inlineMatchHead_lt hm
                simp only [List.length_cons] at this hlen
                omega
              have hlaste : ∃ c, (e1 :: e').getLast? = some c ∧
                  isWordChar c = false := by
                refine ⟨(e1 :: e').getLast (by simp),
                  List.getLast?_eq_getLast _ (by simp), ?_⟩
                refine hAb _ ?_
                rw [hpre, List.getLast?_append_of_ne_nil _ (by simp),
                  List.getLast?_eq_getLast _ (by simp)]
              have hmem := ih r true (e1 :: e') k post hrlen
                (by rw [hr]; simp) hkey hb (Or.inr hlaste)
              exact List.mem_cons_of_mem _ hmem

/-- The inline pass finds exactly the bare inline occurrences. -/
theorem inlineScan_iff {text k : List Char} :
    k ∈ inlineScan text ↔ bareInlineOccurs text k := by
  unfold inlineScan bareInlineOccurs
  constructor
  · intro h
    obtain ⟨pre, post, hs, hkey, hb, hdisj⟩ :=
      inlineScanAux_sound text.length text false k le_rfl h
    refine ⟨hkey, pre, post, hs, ?_, hb⟩
    rcases hdisj with ⟨rfl, -⟩ | ⟨c, hc, hcw⟩
    · exact Or.inl rfl
    · exact Or.inr ⟨c, hc, hcw⟩
  · rintro ⟨hkey, pre, post, hs, hpre, hb⟩
    refine inlineScanAux_complete text.length text false pre k post le_rfl hs
      hkey hb ?_
    rcases hpre with rfl | ⟨c, hc, hcw⟩
    · exact Or.inl ⟨rfl, rfl⟩
    · exact Or.inr ⟨c, hc, hcw⟩

/-- The head of a `dropWhile` residue fails the predicate. -/
theorem head_dropWhile_false {p : Char → Bool} :
    ∀ (l : List Char) (c : Char), (l.dropWhile p).head? = some c →
      p c = false := by
  intro l
  induction l with
  | nil => intro c hc; simp at hc
  | cons a t ih =>
    intro c hc
    rw [List.dropWhile_cons] at hc
    by_cases ha : p a
    · rw [if_pos ha] at hc
      exact ih c hc
    · rw [if_neg ha] at hc
      simp only [List.head?_cons, Option.some.injEq] at hc
      subst hc
      exact Bool.eq_false_iff.mpr ha

/-- Soundness of the post-protocol part of the URL matcher. -/
theorem urlTail_some {s2 k r : List Char} (h : urlTail s2 = some (k, r)) :
    ∃ host L D,
      s2 = host ++ "/browse/".data ++ L ++ '-' :: (D ++ r) ∧
      host ≠ [] ∧ (∀ c ∈ host, c ≠ '/') ∧
      L ≠ [] ∧ (∀ c ∈ L, isUpperAZ c = true) ∧ D ≠ [] ∧
      (∀ c ∈ D, isDigit09 c = true) ∧
      (∀ c, r.head? = some c → isDigit09 c = false) ∧ k = L ++ '-' :: D := by
  unfold urlTail at h
  dsimp only at h
  split at h
  · simp at h
  case isFalse hhostne =>
    cases h3 : matchLit "/browse/".data
        (s2.dropWhile fun c => !(c = '/')) with
    | none => rw [h3] at h; simp at h
    | some s4 =>
      rw [h3] at h
      have hs3 : s2.dropWhile (fun c => !(c = '/')) = "/browse/".data ++ s4 :=
        matchLit_eq_some.mp h3
      dsimp only at h
      rcases h4 : s4.dropWhile isUpperAZ with _ | ⟨c, s6⟩
      · rw [h4] at h; simp at h
      · rw [h4] at h
        dsimp only at h
        split at h
        case isFalse => simp at h
        case isTrue hc =>
          subst hc
          split at h
          case isTrue => simp at h
          case isFalse hne =>
            injection h with h'
            obtain ⟨hk, hr⟩ := Prod.mk.injEq .. |>.mp h'
            have hLne : s4.takeWhile isUpperAZ ≠ [] := by
              intro hnil
              rw [hnil] at hne
              simp at hne
            have hDne : s6.takeWhile isDigit09 ≠ [] := by
              intro hnil
              rw [hnil] at hne
              simp at hne
            have e1 : s2.takeWhile (fun c => !(c = '/')) ++
                s2.dropWhile (fun c => !(c = '/')) = s2 :=
              List.takeWhile_append_dropWhile _ _
            have e2 : s4.takeWhile isUpperAZ ++ s4.dropWhile isUpperAZ = s4 :=
              List.takeWhile_append_dropWhile _ _
            have e3 : s6.takeWhile isDigit09 ++ s6.dropWhile isDigit09 = s6 :=
              List.takeWhile_append_dropWhile _ _
            refine ⟨s2.takeWhile (fun c => !(c = '/')), s4.takeWhile isUpperAZ,
              s6.takeWhile isDigit09, ?_, ?_, ?_, hLne, ?_, hDne, ?_, ?_,
              hk.symm⟩
            · calc s2 = s2.takeWhile (fun c => !(c = '/')) ++
                    s2.dropWhile (fun c => !(c = '/')) := e1.symm
                _ = s2.takeWhile (fun c => !(c = '/')) ++
                    ("/browse/".data ++ s4) := by rw [hs3]
                _ = s2.takeWhile (fun c => !(c = '/')) ++ ("/browse/".data ++
                    (s4.takeWhile isUpperAZ ++ s4.dropWhile isUpperAZ)) := by
                    rw [e2]
                _ = s2.takeWhile (fun c => !(c = '/')) ++ ("/browse/".data ++
                    (s4.takeWhile isUpperAZ ++ ('-' :: s6))) := by rw [h4]
                _ = s2.takeWhile (fun c => !(c = '/')) ++ ("/browse/".data ++
                    (s4.takeWhile isUpperAZ ++ ('-' :: (s6.takeWhile isDigit09
                      ++ s6.dropWhile isDigit09)))) := by rw [e3]
                _ = s2.takeWhile (fun c => !(c = '/')) ++ "/browse/".data ++
                    s4.takeWhile isUpperAZ ++ '-' ::
                    (s6.takeWhile isDigit09 ++ r) := by
                    rw [hr]; simp [List.append_assoc]
            · intro hnil; rw [hnil] at hhostne; simp at hhostne
            · intro c hc
              have := List.mem_takeWhile_imp hc
              simpa using this
            · intro c hc; exact List.mem_takeWhile_imp hc
            · intro c hc; exact List.mem_takeWhile_imp hc
            · intro c hc
              rw [← hr] at hc
              exact head_dropWhile_false s6 c hc

/-- Soundness of the anchored URL matcher. -/
theorem urlMatchHead_some {s k r : List Char}
    (h : urlMatchHead s = some (k, r)) :
    ∃ sOpt host L D,
      s = "http".data ++ sOpt ++ "://".data ++ host ++ "/browse/".data ++
        L ++ '-' :: (D ++ r) ∧
      (sOpt = [] ∨ sOpt = ['s']) ∧ host ≠ [] ∧ (∀ c ∈ host, c ≠ '/') ∧
      L ≠ [] ∧ (∀ c ∈ L, isUpperAZ c = true) ∧ D ≠ [] ∧
      (∀ c ∈ D, isDigit09 c = true) ∧
      (∀ c, r.head? = some c → isDigit09 c = false) ∧ k = L ++ '-' :: D := by
  unfold urlMatchHead at h
  cases h1 : matchLit "http".data s with
  | none => rw [h1] at h; simp at h
  | some s1 =>
    rw [h1] at h
    have hs1 : s = "http".data ++ s1 := matchLit_eq_some.mp h1
    dsimp only at h
    by_cases hh : s1.head? = some 's'
    · rw [if_pos hh] at h
      obtain ⟨t, rfl⟩ : ∃ t, s1 = 's' :: t := by
        cases s1 with
        | nil => simp at hh
        | cons a t =>
          simp only [List.head?_cons, Option.some.injEq] at hh
          exact ⟨t, by rw [hh]⟩
      simp only [List.tail_cons] at h
      cases h2 : matchLit "://".data t with
      | none => rw [h2] at h; simp at h
      | some s2 =>
        rw [h2] at h
        have hs2 : t = "://".data ++ s2 := matchLit_eq_some.mp h2
        obtain ⟨host, L, D, hseq, hh1, hh2, hh3, hh4, hh5, hh6, hh7, hh8⟩ :=
          urlTail_some h
        refine ⟨['s'], host, L, D, ?_, Or.inr rfl, hh1, hh2, hh3, hh4, hh5,
          hh6, hh7, hh8⟩
        rw [hs1, hs2, hseq]
        simp [List.append_assoc]
    · rw [if_neg hh] at h
      cases h2 : matchLit "://".data s1 with
      | none => rw [h2] at h; simp at h
      | some s2 =>
        rw [h2] at h
        have hs2 : s1 = "://".data ++ s2 := matchLit_eq_some.mp h2
        obtain ⟨host, L, D, hseq, hh1, hh2, hh3, hh4, hh5, hh6, hh7, hh8⟩ :=
          urlTail_some h
        refine ⟨[], host, L, D, ?_, Or.inl rfl, hh1, hh2, hh3, hh4, hh5,
          hh6, hh7, hh8⟩
        rw [hs1, hs2, hseq]
        simp [List.append_assoc]

/-- Completeness of the post-protocol part of the URL matcher. -/
theorem urlTail_of_shape {host L D post : List Char} (hhost : host ≠ [])
    (hhosts : ∀ c ∈ host, c ≠ '/') (hL : L ≠ [])
    (hLu : ∀ c ∈ L, isUpperAZ c = true) (hD : D ≠ [])
    (hDd : ∀ c ∈ D, isDigit09 c = true)
    (hpost : ∀ c, post.head? = some c → isDigit09 c = false) :
    urlTail (host ++ "/browse/".data ++ L ++ '-' :: (D ++ post)) =
      some (L ++ '-' :: D, post) := by
  have hhostsb : ∀ c ∈ host, (!(c = '/') : Bool) = true := by
    intro c hc
    simpa using hhosts c hc
  have e1 : (host ++ "/browse/".data ++ L ++ '-' ::
      (D ++ post)).takeWhile (fun c => !(c = '/')) = host := by
    rw [show (host ++ "/browse/".data ++ L ++ '-' :: (D ++ post) : List Char)
      = host ++ ("/browse/".data ++ (L ++ '-' :: (D ++ post)))
      by simp [List.append_assoc]]
    rw [takeWhile_append_of_all hhostsb]
    simp
  have e2 : (host ++ "/browse/".data ++ L ++ '-' ::
      (D ++ post)).dropWhile (fun c => !(c = '/')) =
      "/browse/".data ++ (L ++ '-' :: (D ++ post)) := by
    rw [show (host ++ "/browse/".data ++ L ++ '-' :: (D ++ post) : List Char)
      = host ++ ("/browse/".data ++ (L ++ '-' :: (D ++ post)))
      by simp [List.append_assoc]]
    rw [dropWhile_append_of_all hhostsb]
    simp
  have e3 : (L ++ '-' :: (D ++ post)).takeWhile isUpperAZ = L := by
    rw [takeWhile_append_of_all hLu]
    simp [List.takeWhile_cons, isUpperAZ]
  have e4 : (L ++ '-' :: (D ++ post)).dropWhile isUpperAZ =
      '-' :: (D ++ post) := by
    rw [dropWhile_append_of_all hLu]
    simp [List.dropWhile_cons, isUpperAZ]
  have hnd : ∀ c, post.head? = some c → isDigit09 c = false := hpost
  have e5 : (D ++ post).takeWhile isDigit09 = D := by
    rw [takeWhile_append_of_all hDd, takeWhile_nil_of_head hnd,
      List.append_nil]
  have e6 : (D ++ post).dropWhile isDigit09 = post := by
    rw [dropWhile_append_of_all hDd, dropWhile_self_of_head hnd]
  unfold urlTail
  rw [e1, e2]
  dsimp only
  rw [if_neg (by simp [hhost])]
  rw [show matchLit "/browse/".data ("/browse/".data ++
    (L ++ '-' :: (D ++ post))) = some (L ++ '-' :: (D ++ post)) from
    matchLit_eq_some.mpr rfl]
  dsimp only
  rw [e4]
  dsimp only
  rw [if_pos rfl, e3, e5, e6, if_neg (by simp [hL, hD])]

/-- Completeness of the anchored URL matcher. -/
theorem urlMatchHead_of_shape {sOpt host L D post : List Char}
    (hsopt : sOpt = [] ∨ sOpt = ['s']) (hhost : host ≠ [])
    (hhosts : ∀ c ∈ host, c ≠ '/') (hL : L ≠ [])
    (hLu : ∀ c ∈ L, isUpperAZ c = true) (hD : D ≠ [])
    (hDd : ∀ c ∈ D, isDigit09 c = true)
    (hpost : ∀ c, post.head? = some c → isDigit09 c = false) :
    urlMatchHead ("http".data ++ sOpt ++ "://".data ++ host ++
      "/browse/".data ++ L ++ '-' :: (D ++ post)) =
      some (L ++ '-' :: D, post) := by
  have htail := urlTail_of_shape hhost hhosts hL hLu hD hDd hpost
  unfold urlMatchHead
  rcases hsopt with rfl | rfl
  · rw [show ("http".data ++ [] ++ "://".data ++ host ++ "/browse/".data ++
      L ++ '-' :: (D ++ post) : List Char) = "http".data ++
      (':' :: '/' :: '/' :: (host ++ "/browse/".data ++ L ++ '-' ::
        (D ++ post))) by simp [List.append_assoc]]
    rw [show matchLit "http".data ("http".data ++ (':' :: '/' :: '/' ::
      (host ++ "/browse/".data ++ L ++ '-' :: (D ++ post)))) =
      some (':' :: '/' :: '/' :: (host ++ "/browse/".data ++ L ++ '-' ::
        (D ++ post))) from matchLit_eq_some.mpr rfl]
    dsimp only
    rw [if_neg (by simp)]
    rw [show matchLit "://".data (':' :: '/' :: '/' :: (host ++
      "/browse/".data ++ L ++ '-' :: (D ++ post))) =
      some (host ++ "/browse/".data ++ L ++ '-' :: (D ++ post)) from
      matchLit_eq_some.mpr rfl]
    exact htail
  · rw [show ("http".data ++ ['s'] ++ "://".data ++ host ++ "/browse/".data ++
      L ++ '-' :: (D ++ post) : List Char) = "http".data ++
      ('s' :: ':' :: '/' :: '/' :: (host ++ "/browse/".data ++ L ++ '-' ::
        (D ++ post))) by simp [List.append_assoc]]
    rw [show matchLit "http".data ("http".data ++ ('s' :: ':' :: '/' :: '/' ::
      (host ++ "/browse/".data ++ L ++ '-' :: (D ++ post)))) =
      some ('s' :: ':' :: '/' :: '/' :: (host ++ "/browse/".data ++ L ++
        '-' :: (D ++ post))) from matchLit_eq_some.mpr rfl]
    dsimp only
    rw [if_pos (by simp)]
    simp only [List.tail_cons]
    rw [show matchLit "://".data (':' :: '/' :: '/' :: (host ++
      "/browse/".data ++ L ++ '-' :: (D ++ post))) =
      some (host ++ "/browse/".data ++ L ++ '-' :: (D ++ post)) from
      matchLit_eq_some.mpr rfl]
    exact htail

/-- A successful URL match strictly shrinks the input. -/
theorem urlMatchHead_lt {s k r : List Char}
    (h : urlMatchHead s = some (k, r)) : r.length < s.length := by
  obtain ⟨sOpt, host, L, D, hs, -⟩ := urlMatchHead_some h
  rw [hs]
  simp only [List.length_append, List.length_cons]
  omega

/-- Appending a slash-free list on the left cannot create an adjacent
slash pair. -/
theorem noPair_append {A B : List Char} (hA : ∀ c ∈ A, c ≠ '/')
    (hB : ∀ x y, B ≠ x ++ '/' :: '/' :: y) :
    ∀ x y, A ++ B ≠ x ++ '/' :: '/' :: y := by
  induction A with
  | nil => simpa using hB
  | cons a A' ih =>
    intro x y heq
    cases x with
    | nil =>
      simp only [List.nil_append, List.cons_append, List.cons.injEq] at heq
      exact hA a (List.mem_cons_self _ _) heq.1
    | cons b x' =>
      simp only [List.cons_append, List.cons.injEq] at heq
      exact ih (fun c hc => hA c (List.mem_cons_of_mem _ hc)) x' y heq.2

/-- A single slash followed by a slash-free list has no adjacent slash
pair. -/
theorem slash_tail_noPair {t : List Char} (ht : ∀ c ∈ t, c ≠ '/') :
    ∀ x y, ('/' :: t : List Char) ≠ x ++ '/' :: '/' :: y := by
  intro x y heq
  cases x with
  | nil =>
    simp only [List.nil_append, List.cons.injEq] at heq
    have : '/' ∈ t := by rw [heq.2]; exact List.mem_cons_self _ _
    exact ht _ this rfl
  | cons b x' =>
    simp only [List.cons_append, List.cons.injEq] at heq
    have : '/' ∈ t := by
      rw [heq.2]
      exact List.mem_append_right _ (List.mem_cons_self _ _)
    exact ht _ this rfl

/-- The post-protocol zone `host/browse/<key>` of a matched URL has no two
adjacent slashes: the host and the key are slash-free and the two slashes of
`/browse/` are seven characters apart. -/
theorem zone_noPair {host0 t : List Char} (hh : ∀ c ∈ host0, c ≠ '/')
    (ht : ∀ c ∈ t, c ≠ '/') :
    ∀ x y, (host0 ++ "/browse/".data ++ t : List Char) ≠
      x ++ '/' :: '/' :: y := by
  have hbrowse : ∀ c ∈ (['b', 'r', 'o', 'w', 's', 'e'] : List Char),
      c ≠ '/' := by decide
  have hrest : ∀ x y, ('b' :: 'r' :: 'o' :: 'w' :: 's' :: 'e' :: '/' :: t :
      List Char) ≠ x ++ '/' :: '/' :: y := by
    have := noPair_append hbrowse (slash_tail_noPair ht)
    simpa using this
  have hb2 : ∀ x y, ('/' :: 'b' :: 'r' :: 'o' :: 'w' :: 's' :: 'e' :: '/' ::
      t : List Char) ≠ x ++ '/' :: '/' :: y := by
    intro x y heq
    cases x with
    | nil => simp at heq
    | cons b x' =>
      simp only [List.cons_append, List.cons.injEq] at heq
      exact hrest x' y heq.2
  intro x y heq
  have hassoc : (host0 ++ "/browse/".data ++ t : List Char) =
      host0 ++ ('/' :: 'b' :: 'r' :: 'o' :: 'w' :: 's' :: 'e' :: '/' :: t) := by
    rw [show ("/browse/".data : List Char) =
      '/' :: 'b' :: 'r' :: 'o' :: 'w' :: 's' :: 'e' :: '/' :: [] from rfl]
    simp
  rw [hassoc] at heq
  exact noPair_append hh hb2 x y heq

/-- The head of the right part of a split of `P` (with nonempty left part)
lies in `P`'s tail. -/
theorem head_of_append_suffix {P pre g : List Char} (h : pre ++ g = P)
    (hpre : pre ≠ []) (hg : g ≠ []) :
    ∃ c, g.head? = some c ∧ c ∈ P.tail := by
  cases pre with
  | nil => exact absurd rfl hpre
  | cons a pre0 =>
    cases g with
    | nil => exact absurd rfl hg
    | cons c g' =>
      refine ⟨c, rfl, ?_⟩
      have hP : P.tail = pre0 ++ c :: g' := by rw [← h]; rfl
      rw [hP]
      exact List.mem_append_right _ (List.mem_cons_self _ _)

/-- `head?` looks into the left part of an append when it is nonempty. -/
theorem head?_append_ne {e r : List Char} (he : e ≠ []) :
    (e ++ r).head? = e.head? := by
  cases e with
  | nil => exact absurd rfl he
  | cons a t => rfl

/-- No URL-pattern match can start strictly inside the span of an earlier
URL-pattern match: the span ends in digits while a proper tail of the span
that begins a URL would have to start with `h` and reach an adjacent `//`,
which the post-protocol zone does not contain and the protocol region cannot
supply at a nonzero offset. -/
theorem url_no_overlap
    {sOpt0 host0 L0 D0 sOpt pre e r rest2 : List Char}
    (hsopt0 : sOpt0 = [] ∨ sOpt0 = ['s'])
    (hhost0s : ∀ c ∈ host0, c ≠ '/')
    (hL0u : ∀ c ∈ L0, isUpperAZ c = true)
    (hD0 : D0 ≠ []) (hD0d : ∀ c ∈ D0, isDigit09 c = true)
    (hsopt : sOpt = [] ∨ sOpt = ['s'])
    (hU0 : "http".data ++ sOpt0 ++ "://".data ++ host0 ++ "/browse/".data ++
      L0 ++ '-' :: D0 = pre ++ e)
    (hpre : pre ≠ []) (he : e ≠ [])
    (hUfull : e ++ r = "http".data ++ sOpt ++ "://".data ++ rest2) :
    False := by
  have htailfree : ∀ c ∈ (L0 ++ '-' :: D0 : List Char), c ≠ '/' := by
    intro c hc
    rcases List.mem_append.mp hc with h | h
    · exact upper_ne_slash (hL0u c h)
    · rcases List.mem_cons.mp h with rfl | h2
      · decide
      · exact digit_ne_slash (hD0d c h2)
  have hzone := zone_noPair hhost0s htailfree
  -- the last character of `e` is the last digit of the span
  obtain ⟨d, hdlast, hddig⟩ : ∃ d, e.getLast? = some d ∧
      isDigit09 d = true := by
    have h1 : ("http".data ++ sOpt0 ++ "://".data ++ host0 ++
        "/browse/".data ++ L0 ++ '-' :: D0).getLast? = D0.getLast? := by
      rw [show ("http".data ++ sOpt0 ++ "://".data ++ host0 ++
        "/browse/".data ++ L0 ++ '-' :: D0 : List Char) =
        ("http".data ++ sOpt0 ++ "://".data ++ host0 ++ "/browse/".data ++
          L0 ++ ['-']) ++ D0 by simp]
      exact List.getLast?_append_of_ne_nil _ hD0
    rw [hU0, List.getLast?_append_of_ne_nil _ he] at h1
    cases D0 with
    | nil => exact absurd rfl hD0
    | cons d0 t0 =>
      refine ⟨(d0 :: t0).getLast (by simp), ?_, ?_⟩
      · rw [h1, List.getLast?_eq_getLast _ (by simp)]
      · exact hD0d _ (List.getLast_mem _)
  have hQnd : ∀ c ∈ ("http".data ++ sOpt ++ [':'] : List Char),
      isDigit09 c = false := by
    rcases hsopt with rfl | rfl <;> decide
  have hUfull2 : e ++ r = ("http".data ++ sOpt ++ [':']) ++
      ('/' :: '/' :: rest2) := by
    rw [hUfull,
      show ("://".data : List Char) = ':' :: '/' :: '/' :: [] from rfl]
    simp
  rcases List.append_eq_append_iff.mp hUfull2 with ⟨f, hQ, hfr⟩ |
    ⟨f, hef, hfr⟩
  · have hdm : d ∈ ("http".data ++ sOpt ++ [':'] : List Char) := by
      rw [hQ]
      exact List.mem_append_left _ (List.mem_of_mem_getLast? hdlast)
    rw [hQnd d hdm] at hddig
    cases hddig
  · cases f with
    | nil =>
      rw [List.append_nil] at hef
      have hdm : d ∈ ("http".data ++ sOpt ++ [':'] : List Char) := by
        rw [← hef]
        exact List.mem_of_mem_getLast? hdlast
      rw [hQnd d hdm] at hddig
      cases hddig
    | cons f1 f' =>
      have hf1 : f1 = '/' := by
        have := congrArg List.head? hfr
        simpa using this.symm
      subst hf1
      cases f' with
      | nil =>
        have hlaste : e.getLast? = some '/' := by
          rw [hef, List.getLast?_append_of_ne_nil _ (by simp)]
          rfl
        rw [hlaste] at hdlast
        injection hdlast with hd
        rw [← hd] at hddig
        simp [isDigit09] at hddig
      | cons f2 f'' =>
        have hf2 : f2 = '/' := by
          have := congrArg List.tail hfr
          simp only [List.tail_cons, List.cons_append] at this
          have := congrArg List.head? this
          simpa using this.symm
        subst hf2
        -- e = Q ++ '/' :: '/' :: f''
        have hhead : e.head? = some 'h' := by
          have h1 := congrArg List.head? hUfull
          rw [head?_append_ne he] at h1
          rw [h1]
          rfl
        have hU0' : pre ++ e = ("http".data ++ sOpt0 ++ "://".data) ++
            (host0 ++ "/browse/".data ++ L0 ++ '-' :: D0) := by
          rw [← hU0]
          simp
        rcases List.append_eq_append_iff.mp hU0' with ⟨g, hP0, hZ⟩ |
          ⟨g, hpreg, hZ0⟩
        · cases g with
          | nil =>
            -- e is exactly the zone, but e contains an adjacent slash pair
            rw [List.nil_append] at hZ
            refine hzone ("http".data ++ sOpt ++ [':']) f'' ?_
            simp only [List.append_assoc] at hZ hef ⊢
            rw [← hZ, hef]
          | cons g1 g' =>
            obtain ⟨c, hch, hcm⟩ := head_of_append_suffix hP0.symm hpre
              (by simp)
            have hce : c = 'h' := by
              have h2 : e.head? = some c := by
                rw [hZ, head?_append_ne (by simp)]
                exact hch
              rw [h2] at hhead
              exact Option.some.inj hhead
            subst hce
            have : ∀ c ∈ ("http".data ++ sOpt0 ++ "://".data :
                List Char).tail, c ≠ 'h' := by
              rcases hsopt0 with rfl | rfl <;> decide
            exact this _ hcm rfl
        · -- the zone contains e, which has an adjacent slash pair
          refine hzone (g ++ ("http".data ++ sOpt ++ [':'])) f'' ?_
          simp only [List.append_assoc] at hZ0 hef ⊢
          rw [hZ0, hef]

/-- Soundness of the URL findall scan: every emitted key is embedded in an
issue-browse URL occurring in the input. -/
theorem urlScanAux_sound :
    ∀ fuel s k, s.length ≤ fuel → k ∈ urlScanAux fuel s →
      urlKeyOccurs s k := by
  intro fuel
  induction fuel with
  | zero => intro s k _ hmem; simp [urlScanAux] at hmem
  | succ fuel ih =>
    intro s k hlen hmem
    cases s with
    | nil => simp [urlScanAux] at hmem
    | cons c rest =>
      rw [urlScanAux] at hmem
      cases hm : urlMatchHead (c :: rest) with
      | none =>
        rw [hm] at hmem
        obtain ⟨pre, sOpt, host, L, D, post, hrest, hrest2⟩ :=
          ih rest k (by simpa using Nat.le_of_succ_le_succ hlen) hmem
        refine ⟨c :: pre, sOpt, host, L, D, post, ?_, hrest2⟩
        rw [hrest]
        simp [List.append_assoc]
      | some kr =>
        obtain ⟨k0, r⟩ := kr
        rw [hm] at hmem
        obtain ⟨sOpt0, host0, L0, D0, hs0, hsopt0, hhost0, hhost0s, hL0,
          hL0u, hD0, hD0d, hpost0, hk0⟩ := urlMatchHead_some hm
        rcases List.mem_cons.mp hmem with rfl | hmem'
        · exact ⟨[], sOpt0, host0, L0, D0, r, by
            rw [hs0]; simp [List.append_assoc], hsopt0, hhost0, hhost0s,
            hL0, hL0u, hD0, hD0d, hpost0, hk0⟩
        · have hrlen : r.length ≤ fuel := by
            have := urlMatchHead_lt hm
            simp only [List.length_cons] at this hlen
            omega
          obtain ⟨pre, sOpt, host, L, D, post, hr, hsopt, hhost, hhosts, hL,
            hLu, hD, hDd, hpost, hk⟩ := ih r k hrlen hmem'
          refine ⟨"http".data ++ sOpt0 ++ "://".data ++ host0 ++
            "/browse/".data ++ L0 ++ '-' :: D0 ++ pre, sOpt, host, L, D,
            post, ?_, hsopt, hhost, hhosts, hL, hLu, hD, hDd, hpost, hk⟩
          rw [hs0, hr]
          simp [List.append_assoc]

/-- Completeness of the URL findall scan: every issue-browse URL occurrence
is emitted.  An occurrence cannot start strictly inside an earlier match's
span (`url_no_overlap`), and one starting at or after the span survives in
the scan's continuation. -/
theorem urlScanAux_complete :
    ∀ fuel s k, s.length ≤ fuel → urlKeyOccurs s k →
      k ∈ urlScanAux fuel s := by
  intro fuel
  induction fuel with
  | zero =>
    intro s k hlen hocc
    exfalso
    obtain ⟨pre, sOpt, host, L, D, post, hs, -⟩ := hocc
    have hnil : s = [] := List.eq_nil_of_length_eq_zero (Nat.le_zero.mp hlen)
    rw [hnil] at hs
    rw [show ("http".data : List Char) = 'h' :: 't' :: 't' :: 'p' :: []
      from rfl] at hs
    simp at hs
  | succ fuel ih =>
    intro s k hlen hocc
    obtain ⟨pre, sOpt, host, L, D, post, hs, hsopt, hhost, hhosts, hL, hLu,
      hD, hDd, hpost, hk⟩ := hocc
    cases pre with
    | nil =>
      have hs1 : s = "http".data ++ sOpt ++ "://".data ++ host ++
          "/browse/".data ++ L ++ '-' :: (D ++ post) := by
        rw [hs]
        simp [List.append_assoc]
      have hm : urlMatchHead s = some (L ++ '-' :: D, post) := by
        rw [hs1]
        exact urlMatchHead_of_shape hsopt hhost hhosts hL hLu hD hDd hpost
      cases s with
      | nil =>
        exfalso
        rw [show ("http".data : List Char) = 'h' :: 't' :: 't' :: 'p' :: []
          from rfl] at hs1
        simp at hs1
      | cons c rest =>
        rw [urlScanAux, hm, hk]
        exact List.mem_cons_self _ _
    | cons p pre' =>
      cases s with
      | nil =>
        exfalso
        simp at hs
      | cons c rest =>
        rw [urlScanAux]
        cases hm : urlMatchHead (c :: rest) with
        | none =>
          have h2 : c :: rest = p :: (pre' ++ ("http".data ++ (sOpt ++
              ("://".data ++ (host ++ ("/browse/".data ++ (L ++
                ('-' :: (D ++ post))))))))) := by
            rw [hs]
            simp [List.append_assoc]
          injection h2 with hc hrest
          apply ih rest k (by simpa using Nat.le_of_succ_le_succ hlen)
          refine ⟨pre', sOpt, host, L, D, post, ?_, hsopt, hhost, hhosts,
            hL, hLu, hD, hDd, hpost, hk⟩
          rw [hrest]
          simp [List.append_assoc]
        | some kr =>
          obtain ⟨k0, r⟩ := kr
          obtain ⟨sOpt0, host0, L0, D0, hs0, hsopt0, hhost0, hhost0s, hL0,
            hL0u, hD0, hD0d, hpost0, hk0⟩ := urlMatchHead_some hm
          have hrlen : r.length ≤ fuel := by
            have := urlMatchHead_lt hm
            simp only [List.length_cons] at this hlen
            omega
          have hA : (p :: pre') ++ (("http".data ++ sOpt ++ "://".data ++
              host ++ "/browse/".data ++ L ++ '-' :: D) ++ post) =
              c :: rest := by
            rw [hs]
            simp [List.append_assoc]
          have hB : ("http".data ++ sOpt0 ++ "://".data ++ host0 ++
              "/browse/".data ++ L0 ++ '-' :: D0) ++ r = c :: rest := by
            rw [hs0]
            simp [List.append_assoc]
          have h1 := hA.trans hB.symm
          rcases List.append_eq_append_iff.mp h1 with ⟨e, hU0e, hUfp⟩ |
            ⟨e, hpre2, hr⟩
          · cases e with
            | nil =>
              apply List.mem_cons_of_mem
              apply ih r k hrlen
              refine ⟨[], sOpt, host, L, D, post, ?_, hsopt, hhost, hhosts,
                hL, hLu, hD, hDd, hpost, hk⟩
              have : r = ("http".data ++ sOpt ++ "://".data ++ host ++
                  "/browse/".data ++ L ++ '-' :: D) ++ post := by
                simpa using hUfp.symm
              rw [this]
              simp [List.append_assoc]
            | cons e1 e' =>
              exfalso
              have hUfull : (e1 :: e') ++ r = "http".data ++ sOpt ++
                  "://".data ++ (host ++ ("/browse/".data ++ (L ++
                    ('-' :: (D ++ post))))) := by
                rw [← hUfp]
                simp [List.append_assoc]
              exact url_no_overlap hsopt0 hhost0s hL0u hD0 hD0d hsopt hU0e
                (by simp) (by simp) hUfull
          · apply List.mem_cons_of_mem
            apply ih r k hrlen
            refine ⟨e, sOpt, host, L, D, post, ?_, hsopt, hhost, hhosts,
              hL, hLu, hD, hDd, hpost, hk⟩
            rw [hr]
            simp [List.append_assoc]

/-- The URL pass finds exactly the URL-embedded occurrences. -/
theorem urlScan_iff {text k : List Char} :
    k ∈ urlScan text ↔ urlKeyOccurs text k := by
  unfold urlScan
  exact ⟨fun h => urlScanAux_sound text.length text k le_rfl h,
    fun h => urlScanAux_complete text.length text k le_rfl h⟩

/-- C9 counterexample: `ABCDEFGHIJK-12` is a bare inline token of the
claim's form — uppercase letters, a dash, digits, with word boundaries on
both sides — yet the extractor returns the empty set on a text containing
it: the inline regex bounds the letter run to 2-10 (`[A-Z]{2,10}`, source
line 1334), and eleven letters match nowhere. -/
theorem extract_unbounded_token_cex :
    isPlainKey ("ABCDEFGHIJK-12".data) ∧
    ("see ABCDEFGHIJK-12 ok".data : List Char) =
      "see ".data ++ "ABCDEFGHIJK-12".data ++ " ok".data ∧
    ("see ".data : List Char).getLast? = some ' ' ∧ isWordChar ' ' = false ∧
    boundaryAfterB (" ok".data) = true ∧
    extract_jira_keys ("see ABCDEFGHIJK-12 ok".data) = [] := by
  refine ⟨⟨"ABCDEFGHIJK".data, "12".data, by decide, by decide, by decide,
    by decide, by decide⟩, by decide, by decide, by decide, by decide,
    by decide⟩

/-- C9 as amended: for every text, the set of keys the extractor returns is
exactly the keys embedded in an issue-browse hyperlink
(`http[s]://<host>/browse/<KEY>`, letters unbounded) together with the bare
inline tokens of *2 to 10* uppercase letters, a dash, and digits, delimited
by word boundaries; on identifier-free text both scans find nothing and the
result is the empty set, and the extractor is total (never an error). -/
theorem extract_jira_keys_characterization (text k : List Char) :
    k ∈ extract_jira_keys text ↔
      urlKeyOccurs text k ∨ bareInlineOccurs text k := by
  unfold extract_jira_keys
  rw [List.mem_append, urlScan_iff, inlineScan_iff]

/-- C7 applied: an approval whose execution raises an exception yields one
`failed` feedback event, one fallback attempt, no execution, and the loop
then finishes normally. -/
theorem executor_failure_one_fallback_one_failed_witness :
    runCards (fun _ => Choice.approve ExecOutcome.exn)
        [⟨"AB-1", "t", "u", "s", "f", "tt", [{ type := "comment" }]⟩] 0 =
      ⟨[("comment", "failed")], 1, [], none⟩ := by
  have h := executor_failure_one_fallback_one_failed
    (fun _ => Choice.approve ExecOutcome.exn) 0
    ⟨"AB-1", "t", "u", "s", "f", "tt", []⟩ { type := "comment" } [] []
    ExecOutcome.exn rfl rfl
  rw [h]
  decide

end LogbookSync
